import Mathlib

/-!
# Verification of the PCI compliance agent scan pipeline

A shallow embedding, in Lean 4, of the core of the `pci_agent` repository:
the PAN detection engine (`detection_engine.py`), the report generator
(`report_generator.py`), the secure client's pre-transmission safety gate
(`secure_client.py`), the two-pass scan orchestrator (`file_scanner.py`)
and the path sanitizers (`report_generator.py`, `audit_logger.py`).

Embedding conventions:
* Python strings are `List Char` (a Python `str` is a sequence of code
  points); `String` wrappers appear only in literals.
* Python floats are modelled exactly.  Every constant in the detector's
  confidence arithmetic is a multiple of 0.05, exactly representable in
  binary floating point and under integer scaling, so confidence values
  are carried as integer hundredths (`0.3` is `30`); the few remaining
  float values (report fields, progress percentages) are `ℚ`.
* The regular expressions of the source are compiled by hand into
  matching functions.  Each card pattern is a digit-only pattern, so a
  regex hit is always a contiguous digit run; `\b` is the word-boundary
  test over word characters (letters, digits, underscore; the source runs
  Python `re` in its default Unicode mode, but every string involved in
  the claims is ASCII, so the ASCII classifier is used).
* `dict`s that carry JSON data are an inductive `Json` value; insertion
  order of keys is preserved, as in Python.
* `sha256` never needs to be computed by any claim, only applied; it is a
  parameter of the definitions that call it, and the theorems quantify
  over it.
-/

set_option maxRecDepth 8000

namespace PCI

/-- Word character for `\b`: Python `\w` restricted to ASCII
(`[A-Za-z0-9_]`); every string in the claims is ASCII. -/
def isWordChar (c : Char) : Bool := c.isAlphanum || c == '_'

/-- Substring test, Python's `sub in s`. -/
def containsSub (s sub : List Char) : Bool := s.tails.any (fun t => sub.isPrefixOf t)

/-- `detection_engine.CardType`. -/
inductive CardType where
  | visa | mastercard | amex | discover | diners | jcb | unknown
deriving DecidableEq, Repr

/-- The value strings of the `CardType` enum. -/
def CardType.value : CardType → List Char
  | .visa => "visa".toList
  | .mastercard => "mastercard".toList
  | .amex => "amex".toList
  | .discover => "discover".toList
  | .diners => "diners".toList
  | .jcb => "jcb".toList
  | .unknown => "unknown".toList

/-- The configuration the detector reads in `PANDetector.__init__` and
`PANDetector.scan_text` (detection.* and privacy.* keys); defaults are the
`config.get` defaults of the source. -/
structure DetectorConfig where
  requireLuhn : Bool := true
  /-- `minimum_confidence_score`, in hundredths (source default `0.7`). -/
  minConfidence : Int := 70
  contextWindow : Nat := 100
  excludeMasked : Bool := true
  showLast4 : Bool := true
  allowFullPan : Bool := false
deriving Repr

/-- `dataclass PANMatch` of `detection_engine.py`. -/
structure PANMatch where
  file_path : List Char
  line_number : Nat
  column_start : Nat
  column_end : Nat
  raw_match : List Char
  masked_match : List Char
  card_type : CardType
  luhn_valid : Bool
  /-- confidence, in hundredths. -/
  confidence_score : Int
  context_before : List Char
  context_after : List Char
  is_masked : Bool
deriving DecidableEq, Repr

/-- `int(d)` for a decimal digit character. -/
def digitVal (c : Char) : Nat := c.toNat - 48

/-- The checksum loop shared by `PANDetector.luhn_check` and the inline
copy in `SecureClient._contains_sensitive_data`:
`parity = len % 2`; a digit at index `i` with `i % 2 == parity` is
doubled, and 9 is subtracted when the doubled digit exceeds 9. -/
def luhnChecksum (ds : List Nat) : Nat :=
  (ds.enum.map (fun p =>
    if p.1 % 2 == ds.length % 2 then
      (if p.2 * 2 > 9 then p.2 * 2 - 9 else p.2 * 2)
    else p.2)).sum

/-- `PANDetector.luhn_check`: keep the digit characters, reject lengths
outside `[13, 19]`, accept iff the checksum is divisible by 10. -/
def luhn_check (cardNumber : List Char) : Bool :=
  let digits := (cardNumber.filter Char.isDigit).map digitVal
  if digits.length < 13 || digits.length > 19 then false
  else luhnChecksum digits % 10 == 0

/-- `PANDetector.mask_pan`. -/
def mask_pan (pan : List Char) (showLast4 : Bool) : List Char :=
  if pan.length < 4 then List.replicate pan.length '*'
  else if showLast4 then
    List.replicate (pan.length - 4) '*' ++ pan.drop (pan.length - 4)
  else List.replicate pan.length '*'

/-! ## The MASKED_PATTERNS regexes

Each pattern is turned into an anchored predicate (does the pattern match
a prefix of the given suffix?); `regex.search` is then the disjunction of
the anchored predicate over all suffixes.  None of the eight patterns
needs backtracking: the repeated classes are disjoint from what follows
them, so maximal munch is exact, and the `{4}` counts are exact counts. -/

/-- `\*{4,}` / `X{4,}` / `#{4,}` at the start of `s`. -/
def patRepeat4 (fill : Char) (s : List Char) : Bool :=
  4 ≤ (s.takeWhile (fun c => c == fill)).length

/-- `\*+\d{4}` / `X+\d{4}` / `#+\d{4}` at the start of `s`. -/
def patFillThen4Digits (fill : Char) (s : List Char) : Bool :=
  let run := s.takeWhile (fun c => c == fill)
  let rest := s.drop run.length
  1 ≤ run.length && 4 ≤ rest.length && (rest.take 4).all Char.isDigit

/-- `\d{4}[\*X#]{4,}` at the start of `s`. -/
def patDigitsThenFill (s : List Char) : Bool :=
  let rest := s.drop 4
  4 ≤ s.length && (s.take 4).all Char.isDigit &&
    4 ≤ (rest.takeWhile (fun c => c == '*' || c == 'X' || c == '#')).length

/-- `\d{4}-\*{4}-\*{4}-\d{4}` at the start of `s`. -/
def patDashed (s : List Char) : Bool :=
  19 ≤ s.length &&
  (s.take 4).all Char.isDigit &&
  s.get? 4 == some '-' &&
  ((s.drop 5).take 4).all (fun c => c == '*') &&
  s.get? 9 == some '-' &&
  ((s.drop 10).take 4).all (fun c => c == '*') &&
  s.get? 14 == some '-' &&
  ((s.drop 15).take 4).all Char.isDigit

/-- `regex.search` for an anchored predicate. -/
def searchPat (p : List Char → Bool) (s : List Char) : Bool := s.tails.any p

/-- Does any of the eight `MASKED_PATTERNS` occur in `text`?  (The loop
body of `is_masked_number`, independent of configuration.) -/
def maskedPatternsFound (text : List Char) : Bool :=
  searchPat (patRepeat4 '*') text ||
  searchPat (patRepeat4 'X') text ||
  searchPat (patRepeat4 '#') text ||
  searchPat (patFillThen4Digits '*') text ||
  searchPat (patFillThen4Digits 'X') text ||
  searchPat (patFillThen4Digits '#') text ||
  searchPat patDigitsThenFill text ||
  searchPat patDashed text

/-- `PANDetector.is_masked_number`: short-circuits to `false` when
`exclude_masked_patterns` is off. -/
def is_masked_number (cfg : DetectorConfig) (text : List Char) : Bool :=
  if !cfg.excludeMasked then false
  else maskedPatternsFound text

/-! ## The CARD_PATTERNS regexes

Each brand pattern of `CARD_PATTERNS` is compiled as
`re.compile(r'\b' + pattern + r'\b')`.  For every brand except
MASTERCARD the pattern has no top-level alternation, so both boundaries
apply.  The MASTERCARD pattern has a top-level `|`, so the compiled form
is `\b5[1-5][0-9]{14}` *or* `2(...)[0-9]{12}\b`: the first alternative
carries no trailing boundary and the second no leading boundary.

A brand matcher receives the character preceding the current position
(`none` at the start of the line) and the suffix starting there, and
returns the length of the match of the compiled regex at that position,
if any. -/

/-- Leading `\b` before a digit: the previous character must be absent or
a non-word character. -/
def boundaryBefore (prev : Option Char) : Bool :=
  match prev with
  | none => true
  | some c => !isWordChar c

/-- Trailing `\b` after a digit at offset `i`: the character at `i` must
be absent or a non-word character. -/
def boundaryAt (s : List Char) (i : Nat) : Bool :=
  match s.get? i with
  | none => true
  | some c => !isWordChar c

/-- The first `n` characters of `s` exist and are digits. -/
def digitRun (s : List Char) (n : Nat) : Bool :=
  n ≤ s.length && (s.take n).all Char.isDigit

/-- Character range test `[lo-hi]`. -/
def chBetween (c lo hi : Char) : Bool := lo ≤ c && c ≤ hi

/-- `\b4[0-9]{12}(?:[0-9]{3})?\b`.  The optional group is greedy: 16
digits are preferred; if the trailing boundary fails there, the 13-digit
backtrack also fails its boundary (character 13 is then a digit). -/
def visaLen (prev : Option Char) (s : List Char) : Option Nat :=
  if boundaryBefore prev && s.head? == some '4' && digitRun s 13 then
    if digitRun s 16 then (if boundaryAt s 16 then some 16 else none)
    else if boundaryAt s 13 then some 13 else none
  else none

/-- The inner alternation of the MASTERCARD 2-series prefix
`2(?:2(?:2[1-9]|[3-9][0-9])|[3-6][0-9][0-9]|7(?:[0-1][0-9]|20))`
applied to the three digits following the leading `2`. -/
def mc2Series (d1 d2 d3 : Char) : Bool :=
  (d1 == '2' && ((d2 == '2' && chBetween d3 '1' '9') ||
                 (chBetween d2 '3' '9' && d3.isDigit))) ||
  (chBetween d1 '3' '6' && d2.isDigit && d3.isDigit) ||
  (d1 == '7' && ((chBetween d2 '0' '1' && d3.isDigit) ||
                 (d2 == '2' && d3 == '0')))

/-- `\b5[1-5][0-9]{14}|2(?:...)[0-9]{12}\b` — note the one-sided
boundaries produced by the top-level alternation. -/
def mastercardLen (prev : Option Char) (s : List Char) : Option Nat :=
  if boundaryBefore prev && s.head? == some '5' &&
      (match s.get? 1 with | some c => chBetween c '1' '5' | none => false) &&
      digitRun s 16 then
    some 16
  else if s.head? == some '2' &&
      (match s.get? 1, s.get? 2, s.get? 3 with
       | some d1, some d2, some d3 => mc2Series d1 d2 d3
       | _, _, _ => false) &&
      digitRun s 16 && boundaryAt s 16 then
    some 16
  else none

/-- `\b3[47][0-9]{13}\b`. -/
def amexLen (prev : Option Char) (s : List Char) : Option Nat :=
  if boundaryBefore prev && s.head? == some '3' &&
      (s.get? 1 == some '4' || s.get? 1 == some '7') &&
      digitRun s 15 && boundaryAt s 15 then
    some 15
  else none

/-- `\b6(?:011|5[0-9]{2})[0-9]{12}\b`. -/
def discoverLen (prev : Option Char) (s : List Char) : Option Nat :=
  if boundaryBefore prev && s.head? == some '6' &&
      ((s.get? 1 == some '0' && s.get? 2 == some '1' && s.get? 3 == some '1') ||
       (s.get? 1 == some '5' &&
        (match s.get? 2, s.get? 3 with
         | some d2, some d3 => d2.isDigit && d3.isDigit
         | _, _ => false))) &&
      digitRun s 16 && boundaryAt s 16 then
    some 16
  else none

/-- `\b3(?:0[0-5]|[68][0-9])[0-9]{11}\b`. -/
def dinersLen (prev : Option Char) (s : List Char) : Option Nat :=
  if boundaryBefore prev && s.head? == some '3' &&
      ((s.get? 1 == some '0' &&
        (match s.get? 2 with | some d2 => chBetween d2 '0' '5' | none => false)) ||
       ((s.get? 1 == some '6' || s.get? 1 == some '8') &&
        (match s.get? 2 with | some d2 => d2.isDigit | none => false))) &&
      digitRun s 14 && boundaryAt s 14 then
    some 14
  else none

/-- `\b(?:2131|1800|35\d{3})\d{11}\b`; the three alternatives have
pairwise incompatible prefixes, so the alternation is deterministic. -/
def jcbLen (prev : Option Char) (s : List Char) : Option Nat :=
  if boundaryBefore prev then
    if "2131".toList.isPrefixOf s && digitRun s 15 && boundaryAt s 15 then some 15
    else if "1800".toList.isPrefixOf s && digitRun s 15 && boundaryAt s 15 then some 15
    else if "35".toList.isPrefixOf s && digitRun s 16 && boundaryAt s 16 then some 16
    else none
  else none

/-- The matcher of a brand's compiled pattern. -/
def brandMatcher : CardType → Option Char → List Char → Option Nat
  | .visa => visaLen
  | .mastercard => mastercardLen
  | .amex => amexLen
  | .discover => discoverLen
  | .diners => dinersLen
  | .jcb => jcbLen
  | .unknown => fun _ _ => none

/-- Insertion order of `CARD_PATTERNS`, the iteration order of
`compiled_patterns.items()` in `scan_text`. -/
def cardOrder : List CardType :=
  [.visa, .mastercard, .amex, .discover, .diners, .jcb]

/-- `pattern.finditer(line)`: leftmost, non-overlapping matches.  Each
element is `(start, end, matched_text)`.  The fuel argument only bounds
the recursion; it is initialized to more steps than a scan of the line
can take, and every brand matcher returns match lengths ≥ 13, so it
never cuts a scan short. -/
def finditerAux (m : Option Char → List Char → Option Nat) :
    Nat → Option Char → List Char → Nat → List (Nat × Nat × List Char)
  | 0, _, _, _ => []
  | _ + 1, _, [], _ => []
  | fuel + 1, prev, c :: cs, pos =>
    match m prev (c :: cs) with
    | some L =>
        (pos, pos + L, (c :: cs).take L) ::
          finditerAux m fuel ((c :: cs).get? (L - 1)) ((c :: cs).drop L) (pos + L)
    | none => finditerAux m fuel (some c) cs (pos + 1)

/-- All matches of a compiled pattern in `line`. -/
def finditer (m : Option Char → List Char → Option Nat) (line : List Char) :
    List (Nat × Nat × List Char) :=
  finditerAux m (line.length + 1) none line 0

/-- The payment keyword list of `calculate_confidence`. -/
def paymentKeywords : List (List Char) :=
  ["card", "credit", "debit", "payment", "visa", "mastercard", "amex",
   "discover", "pan", "account", "number", "cvv", "expiry", "expire"].map String.toList

/-- `PANDetector.calculate_confidence`, in exact integer hundredths
(`0.3` is `30`, and so on; see the header conventions). -/
def calculate_confidence (_matchText : List Char) (cardType : CardType)
    (luhnValid : Bool) (context : List Char) (isMasked : Bool) : Int :=
  let confidence : Int := 30
  let confidence := if luhnValid then confidence + 40 else confidence
  let contextLower := context.map Char.toLower
  let keywordMatches :=
    (paymentKeywords.filter (fun kw => containsSub contextLower kw)).length
  let confidence := confidence + min ((keywordMatches : Int) * 5) 20
  let confidence := if isMasked then confidence - 20 else confidence
  let confidence :=
    if cardType = .visa ∨ cardType = .mastercard ∨ cardType = .amex then
      confidence + 10
    else confidence
  min (max confidence 0) 100

/-- The body of the inner loop of `PANDetector.scan_text` for one regex
hit: the length filter, Luhn filter, context extraction, masking test,
confidence filter, and construction of the `PANMatch`. -/
def processCandidate (cfg : DetectorConfig) (filePath : List Char) (lineNum : Nat)
    (line : List Char) (cardType : CardType) (hit : Nat × Nat × List Char) :
    Option PANMatch :=
  let mstart := hit.1
  let mend := hit.2.1
  let panCandidate := hit.2.2
  let digitsOnly := panCandidate.filter Char.isDigit
  if digitsOnly.length < 13 || digitsOnly.length > 19 then none else
  let luhnValid := luhn_check digitsOnly
  if cfg.requireLuhn && !luhnValid then none else
  let startPos := mstart - cfg.contextWindow
  let endPos := min line.length (mend + cfg.contextWindow)
  let contextBefore := (line.drop startPos).take (mstart - startPos)
  let contextAfter := (line.drop mend).take (endPos - mend)
  let fullContext := contextBefore ++ panCandidate ++ contextAfter
  let isMasked := is_masked_number cfg fullContext
  let confidence :=
    calculate_confidence panCandidate cardType luhnValid fullContext isMasked
  if confidence < cfg.minConfidence then none else
  let maskedPan := mask_pan digitsOnly cfg.showLast4
  some {
    file_path := filePath
    line_number := lineNum
    column_start := mstart
    column_end := mend
    raw_match := if cfg.allowFullPan then panCandidate else []
    masked_match := maskedPan
    card_type := cardType
    luhn_valid := luhnValid
    confidence_score := confidence
    context_before :=
      if contextBefore.length > 50 then
        contextBefore.drop (contextBefore.length - 50)
      else contextBefore
    context_after :=
      if contextAfter.length > 50 then contextAfter.take 50 else contextAfter
    is_masked := isMasked }

/-- One iteration of the `for line_num, line in enumerate(lines, 1)` loop
of `scan_text`: skip lines the masking pre-filter rejects, then scan with
every brand pattern in order. -/
def processLine (cfg : DetectorConfig) (filePath : List Char)
    (p : Nat × List Char) : List PANMatch :=
  if is_masked_number cfg p.2 then []
  else
    cardOrder.flatMap fun ct =>
      (finditer (brandMatcher ct) p.2).filterMap
        (processCandidate cfg filePath p.1 p.2 ct)

/-- `text.split('\n')` (Python semantics: the empty text yields one empty
line, a trailing newline yields a trailing empty line). -/
def splitLinesNl : List Char → List (List Char)
  | [] => [[]]
  | c :: cs =>
    if c = '\n' then [] :: splitLinesNl cs
    else
      match splitLinesNl cs with
      | [] => [[c]]
      | l :: ls => (c :: l) :: ls

/-- 1-based enumeration, `enumerate(lines, 1)`. -/
def enumFrom1 (ls : List (List Char)) : List (Nat × List Char) :=
  ls.enum.map (fun p => (p.1 + 1, p.2))

/-- `PANDetector.scan_text`. -/
def scan_text (cfg : DetectorConfig) (text filePath : List Char) : List PANMatch :=
  (enumFrom1 (splitLinesNl text)).flatMap (processLine cfg filePath)

/-! ## Path sanitization (`_sanitize_file_path`)

Both `ReportGenerator._sanitize_file_path` and
`AuditLogger._sanitize_file_path` are chains of three `re.sub` calls
whose patterns all have the shape `lit [^sep]+ sep` where `lit` is a
literal (`/Users/`, `\Users\` or `C:\Users\`) and `sep` is the final
character of `lit`.  The class `[^sep]+` cannot match `sep`, so the
greedy repetition is exact maximal munch and a match at a position is
`lit`, then a maximal non-empty `sep`-free run, then `sep`.

Python parses the replacement template eagerly — before looking for any
match — whenever it contains a backslash: `\\` denotes a backslash, a
backslash followed by an ASCII letter (other than the recognized control
escapes) raises `re.error: bad escape`, a backslash followed by anything
else is kept as the two characters, and a trailing backslash raises
`re.error: bad escape (end of pattern)`. -/

/-- The part of a `lit [^sep]+ sep` match after the literal: a maximal
non-empty run of non-`sep` characters, then `sep`; returns the remainder
after the match. -/
def uaMatchBody (sep : Char) (rest : List Char) : Option (List Char) :=
  if (rest.takeWhile (fun c => c ≠ sep)).length = 0 then none
  else
    match rest.drop (rest.takeWhile (fun c => c ≠ sep)).length with
    | c :: rest' => if c = sep then some rest' else none
    | [] => none

/-- The match of `lit [^sep]+ sep` at the start of `s`: returns the
remainder after the match. -/
def uaMatch (lit : List Char) (sep : Char) (s : List Char) : Option (List Char) :=
  if lit.isPrefixOf s then uaMatchBody sep (s.drop lit.length)
  else none

theorem uaMatchBody_length_lt {sep : Char} {r out : List Char}
    (h : uaMatchBody sep r = some out) : out.length < r.length := by
  unfold uaMatchBody at h
  split at h
  · exact absurd h (by simp)
  · split at h
    case h_1 c rest' heq =>
      split at h
      · cases h
        have hlen := congrArg List.length heq
        simp only [List.length_drop, List.length_cons] at hlen
        omega
      · exact absurd h (by simp)
    case h_2 => exact absurd h (by simp)

theorem uaMatch_length_lt {lit : List Char} {sep : Char} {s rest : List Char}
    (h : uaMatch lit sep s = some rest) : rest.length < s.length := by
  unfold uaMatch at h
  split at h
  · have := uaMatchBody_length_lt h
    have hd : (s.drop lit.length).length ≤ s.length := by
      simp only [List.length_drop]; omega
    omega
  · exact absurd h (by simp)

/-- `re.sub` for a pattern `lit [^sep]+ sep` with (already parsed)
replacement `rep`: leftmost, non-overlapping matches; every match is
replaced, unmatched characters are copied. -/
def reSubUA (lit : List Char) (sep : Char) (rep : List Char) : List Char → List Char
  | [] => []
  | c :: cs =>
    match h : uaMatch lit sep (c :: cs) with
    | some rest => rep ++ reSubUA lit sep rep rest
    | none => c :: reSubUA lit sep rep cs
termination_by s => s.length
decreasing_by
  · exact uaMatch_length_lt h
  · simp

/-- Python's parsing of a `re.sub` replacement template (the subset of
escape forms exercised by the repository; `idx` tracks the position for
the error message). -/
def parseTemplateAux : Nat → List Char → Except (List Char) (List Char)
  | _, [] => .ok []
  | idx, '\\' :: rest =>
    match rest with
    | [] => .error ("bad escape (end of pattern) at position ".toList ++
        (toString idx).toList)
    | c :: cs =>
      if c = '\\' then (parseTemplateAux (idx + 2) cs).map (fun t => '\\' :: t)
      else if c = 'n' then (parseTemplateAux (idx + 2) cs).map (fun t => '\n' :: t)
      else if c = 't' then (parseTemplateAux (idx + 2) cs).map (fun t => '\t' :: t)
      else if c.isAlpha then
        .error ("bad escape \\".toList ++ [c] ++ " at position ".toList ++
          (toString idx).toList)
      else (parseTemplateAux (idx + 2) cs).map (fun t => '\\' :: c :: t)
  | idx, c :: cs => (parseTemplateAux (idx + 1) cs).map (fun t => c :: t)

/-- Template parse, from position 0. -/
def parseTemplate (template : List Char) : Except (List Char) (List Char) :=
  parseTemplateAux 0 template

/-- One `re.sub(pattern, template, s)` call for a `lit [^sep]+ sep`
pattern: the template is parsed first (eagerly, even when `s` has no
match), then every match is replaced. -/
def pyReSub (lit : List Char) (sep : Char) (template : List Char)
    (s : List Char) : Except (List Char) (List Char) :=
  match parseTemplate template with
  | .error e => .error e
  | .ok rep => .ok (reSubUA lit sep rep s)

def litSlashUsers : List Char := "/Users/".toList
def litBackUsers : List Char := "\\Users\\".toList
def litDriveUsers : List Char := "C:\\Users\\".toList

/-- `ReportGenerator._sanitize_file_path`.  The three replacement
templates are the raw Python strings `'/Users/<user>/'`,
`r'\\Users\\<user>\\'` and `r'C:\\Users\\<user>\\'`; all three parse, to
`/Users/<user>/`, `\Users\<user>\` and `C:\Users\<user>\`. -/
def rg_sanitize_file_path (filePath : List Char) : Except (List Char) (List Char) := do
  let s1 ← pyReSub litSlashUsers '/' "/Users/<user>/".toList filePath
  let s2 ← pyReSub litBackUsers '\\' "\\\\Users\\\\<user>\\\\".toList s1
  pyReSub litDriveUsers '\\' "C:\\\\Users\\\\<user>\\\\".toList s2

/-- `AuditLogger._sanitize_file_path`.  Its second and third replacement
templates are the *non-raw* Python strings `'\\Users\\<user>\\'` and
`'C:\\Users\\<user>\\'`, whose values are `\Users\<user>\` and
`C:\Users\<user>\`: both contain the escape `\U`, which `re.sub` rejects
while parsing the template, before looking for a match. -/
def audit_sanitize_file_path (filePath : List Char) :
    Except (List Char) (List Char) := do
  let s1 ← pyReSub litSlashUsers '/' "/Users/<user>/".toList filePath
  let s2 ← pyReSub litBackUsers '\\' "\\Users\\<user>\\".toList s1
  pyReSub litDriveUsers '\\' "C:\\Users\\<user>\\".toList s2

/-- The pure value of `ReportGenerator._sanitize_file_path` (its
templates always parse). -/
def rgSanitize (filePath : List Char) : List Char :=
  reSubUA litDriveUsers '\\' "C:\\Users\\<user>\\".toList
    (reSubUA litBackUsers '\\' "\\Users\\<user>\\".toList
      (reSubUA litSlashUsers '/' "/Users/<user>/".toList filePath))

/-! ## Idempotence of `ReportGenerator._sanitize_file_path`

The sanitizer the claim describes is idempotent: applying it twice gives
the same result as applying it once, for every input string.  The proof
develops a small theory of `reSubUA` for patterns of the shape
`sep core sep [^sep]+ sep` (with a possible literal prefix), shared by the
three username patterns. -/

/-! Basic unfolding lemmas. -/

theorem reSubUA_cons_none {lit : List Char} {sep : Char} {rep : List Char}
    {c : Char} {cs : List Char} (h : uaMatch lit sep (c :: cs) = none) :
    reSubUA lit sep rep (c :: cs) = c :: reSubUA lit sep rep cs := by
  rw [reSubUA]
  split
  · next r heq => rw [h] at heq; cases heq
  · rfl

theorem reSubUA_cons_some {lit : List Char} {sep : Char} {rep : List Char}
    {c : Char} {cs r : List Char} (h : uaMatch lit sep (c :: cs) = some r) :
    reSubUA lit sep rep (c :: cs) = rep ++ reSubUA lit sep rep r := by
  rw [reSubUA]
  split
  · next r' heq => rw [h] at heq; cases heq; rfl
  · next heq => rw [h] at heq; cases heq

theorem reSubUA_nil {lit : List Char} {sep : Char} {rep : List Char} :
    reSubUA lit sep rep [] = [] := by
  rw [reSubUA]

theorem uaMatch_nil_none {lit : List Char} {sep : Char} :
    uaMatch lit sep [] = none := by
  unfold uaMatch
  split
  · unfold uaMatchBody
    simp
  · rfl

theorem reSubUA_of_match {lit : List Char} {sep : Char} {rep : List Char}
    {s r : List Char} (h : uaMatch lit sep s = some r) :
    reSubUA lit sep rep s = rep ++ reSubUA lit sep rep r := by
  match s with
  | [] => rw [uaMatch_nil_none] at h; cases h
  | c :: cs => exact reSubUA_cons_some h

/-! Structure of successful matches. -/

theorem takeWhile_eq_of_sepFree {p : Char → Bool} {w : List Char}
    (hw : ∀ a ∈ w, p a = true) {c : Char} (hc : p c = false) (r : List Char) :
    (w ++ c :: r).takeWhile p = w := by
  induction w with
  | nil => simp [List.takeWhile_cons, hc]
  | cons a as ih =>
    have ha : p a = true := hw a (by simp)
    simp only [List.cons_append, List.takeWhile_cons, ha, if_true]
    rw [ih (fun b hb => hw b (by simp [hb]))]

theorem uaMatchBody_some_iff {sep : Char} {t r : List Char} :
    uaMatchBody sep t = some r ↔
      ∃ w, w ≠ [] ∧ (∀ a ∈ w, a ≠ sep) ∧ t = w ++ sep :: r := by
  constructor
  · intro h
    unfold uaMatchBody at h
    split at h
    · exact absurd h (by simp)
    · next hlen =>
      split at h
      case h_1 c rest' heq =>
        split at h
        · next hc =>
          cases h
          rw [hc] at heq
          refine ⟨t.takeWhile (fun c => c ≠ sep), ?_, ?_, ?_⟩
          · intro hnil; rw [hnil] at hlen; exact hlen rfl
          · intro a ha
            have := List.mem_takeWhile_imp ha
            simpa using this
          · have hpre : (t.takeWhile (fun c => c ≠ sep)) <+: t :=
              List.takeWhile_prefix _
            have hsplit := List.prefix_iff_eq_append.mp hpre
            conv_lhs => rw [← hsplit]
            rw [heq]
        · exact absurd h (by simp)
      case h_2 => exact absurd h (by simp)
  · rintro ⟨w, hne, hw, rfl⟩
    have hw' : ∀ a ∈ w, (fun c : Char => decide (c ≠ sep)) a = true := by
      intro a ha; simpa using hw a ha
    have hsep : (fun c : Char => decide (c ≠ sep)) sep = false := by simp
    have htw : ((w ++ sep :: r).takeWhile fun c => c ≠ sep) = w :=
      takeWhile_eq_of_sepFree hw' hsep r
    unfold uaMatchBody
    rw [htw]
    have hlen : w.length ≠ 0 := by
      intro h0; exact hne (List.length_eq_zero.mp h0)
    rw [if_neg hlen]
    have hdrop : (w ++ sep :: r).drop w.length = sep :: r := by
      rw [List.drop_left]
    rw [hdrop]
    simp

/-! Cancellation of `sep`-free prefixes around a separator. -/

theorem sepFree_sep_cancel {sep : Char} :
    ∀ (w₁ : List Char), (∀ a ∈ w₁, a ≠ sep) →
      ∀ (w₂ x y : List Char), (∀ a ∈ w₂, a ≠ sep) →
        w₁ ++ sep :: x = w₂ ++ sep :: y → w₁ = w₂ ∧ x = y := by
  intro w₁
  induction w₁ with
  | nil =>
    intro _ w₂ x y h₂ h
    cases w₂ with
    | nil => simpa using h
    | cons b bs =>
      simp only [List.nil_append, List.cons_append, List.cons.injEq] at h
      exact absurd h.1.symm (h₂ b (by simp))
  | cons a as ih =>
    intro h₁ w₂ x y h₂ h
    cases w₂ with
    | nil =>
      simp only [List.nil_append, List.cons_append, List.cons.injEq] at h
      exact absurd h.1 (h₁ a (by simp))
    | cons b bs =>
      simp only [List.cons_append, List.cons.injEq] at h
      obtain ⟨hab, h'⟩ := h
      obtain ⟨h1, h2⟩ := ih (fun u hu => h₁ u (by simp [hu])) bs x y
        (fun u hu => h₂ u (by simp [hu])) h'
      exact ⟨by rw [hab, h1], h2⟩

/-! Structure of a successful `uaMatch`. -/

theorem uaMatch_some_iff {lit : List Char} {sep : Char} {s r : List Char} :
    uaMatch lit sep s = some r ↔
      ∃ w, w ≠ [] ∧ (∀ a ∈ w, a ≠ sep) ∧ s = lit ++ (w ++ sep :: r) := by
  unfold uaMatch
  constructor
  · intro h
    split at h
    · next hp =>
      obtain ⟨w, hne, hw, hb⟩ := uaMatchBody_some_iff.mp h
      refine ⟨w, hne, hw, ?_⟩
      have hpre : lit <+: s := List.isPrefixOf_iff_prefix.mp hp
      have hs := List.prefix_iff_eq_append.mp hpre
      conv_lhs => rw [← hs]
      rw [hb]
    · cases h
  · rintro ⟨w, hne, hw, rfl⟩
    have hp : lit.isPrefixOf (lit ++ (w ++ sep :: r)) = true :=
      List.isPrefixOf_iff_prefix.mpr (List.prefix_append _ _)
    rw [if_pos hp, List.drop_left]
    exact uaMatchBody_some_iff.mpr ⟨w, hne, hw, rfl⟩

theorem uaMatch_lit_append {lit : List Char} {sep : Char} (t : List Char) :
    uaMatch lit sep (lit ++ t) = uaMatchBody sep t := by
  unfold uaMatch
  have hp : lit.isPrefixOf (lit ++ t) = true :=
    List.isPrefixOf_iff_prefix.mpr (List.prefix_append _ _)
  rw [if_pos hp, List.drop_left]

theorem uaMatch_some_head {lit : List Char} {lc : Char} {lr : List Char}
    (hl : lit = lc :: lr) {sep c : Char} {cs r : List Char}
    (h : uaMatch lit sep (c :: cs) = some r) : c = lc := by
  obtain ⟨w, _, _, hs⟩ := uaMatch_some_iff.mp h
  rw [hl] at hs
  simp only [List.cons_append, List.cons.injEq] at hs
  exact hs.1

/-! Copying over characters that cannot start a match. -/

theorem uaMatch_none_of_head_ne {lit : List Char} {lc : Char} {lr : List Char}
    (hl : lit = lc :: lr) {sep c : Char} {cs : List Char} (hc : c ≠ lc) :
    uaMatch lit sep (c :: cs) = none := by
  cases hm : uaMatch lit sep (c :: cs) with
  | none => rfl
  | some r => exact absurd (uaMatch_some_head hl hm) hc

theorem reSubUA_copy_append {lit : List Char} {lc : Char} {lr : List Char}
    (hl : lit = lc :: lr) {sep : Char} {rep : List Char} :
    ∀ {w : List Char}, (∀ a ∈ w, a ≠ lc) → ∀ (z : List Char),
      reSubUA lit sep rep (w ++ z) = w ++ reSubUA lit sep rep z := by
  intro w
  induction w with
  | nil => intro _ z; simp
  | cons a as ih =>
    intro hw z
    have hm : uaMatch lit sep (a :: (as ++ z)) = none :=
      uaMatch_none_of_head_ne hl (hw a (by simp))
    rw [List.cons_append, reSubUA_cons_none hm, ih (fun b hb => hw b (by simp [hb])) z]
    rfl

theorem reSubUA_eq_self_of_ne_head {lit : List Char} {lc : Char} {lr : List Char}
    (hl : lit = lc :: lr) {sep : Char} {rep : List Char}
    {z : List Char} (hz : ∀ a ∈ z, a ≠ lc) :
    reSubUA lit sep rep z = z := by
  have h := @reSubUA_copy_append lit lc lr hl sep rep z hz []
  rw [List.append_nil, reSubUA_nil, List.append_nil] at h
  exact h

/-! Head preservation and inversion of the copy step. -/

theorem reSubUA_head {lit : List Char} {lc : Char} {lr rr : List Char}
    (hl : lit = lc :: lr) {sep : Char} {rep : List Char} (hr : rep = lc :: rr)
    (z : List Char) :
    (reSubUA lit sep rep z).head? = z.head? := by
  match z with
  | [] => rw [reSubUA_nil]
  | c :: cs =>
    cases hm : uaMatch lit sep (c :: cs) with
    | some r =>
      rw [reSubUA_cons_some hm, hr]
      have hc := uaMatch_some_head hl hm
      simp [hc]
    | none => rw [reSubUA_cons_none hm]; simp

theorem reSubUA_cons_inv {lit : List Char} {lc : Char} {lr rr : List Char}
    (hl : lit = lc :: lr) {sep : Char} {rep : List Char} (hr : rep = lc :: rr)
    {z : List Char} {h : Char} {w : List Char}
    (he : reSubUA lit sep rep z = h :: w) (hne : h ≠ lc) :
    ∃ z', z = h :: z' ∧ w = reSubUA lit sep rep z' := by
  match z with
  | [] => rw [reSubUA_nil] at he; cases he
  | c :: cs =>
    cases hm : uaMatch lit sep (c :: cs) with
    | some r =>
      rw [reSubUA_cons_some hm, hr] at he
      simp only [List.cons_append, List.cons.injEq] at he
      exact absurd he.1.symm hne
    | none =>
      rw [reSubUA_cons_none hm] at he
      simp only [List.cons.injEq] at he
      exact ⟨cs, by rw [← he.1], he.2.symm⟩

theorem reSubUA_peel {lit : List Char} {lc : Char} {lr rr : List Char}
    (hl : lit = lc :: lr) {sep : Char} {rep : List Char} (hr : rep = lc :: rr) :
    ∀ (u : List Char), (∀ a ∈ u, a ≠ lc) → ∀ {z v : List Char},
      reSubUA lit sep rep z = u ++ v →
      ∃ z', z = u ++ z' ∧ reSubUA lit sep rep z' = v := by
  intro u
  induction u with
  | nil =>
    intro _ z v he
    exact ⟨z, rfl, by simpa using he⟩
  | cons a as ih =>
    intro hu z v he
    rw [List.cons_append] at he
    obtain ⟨z₁, hz₁, hv⟩ := reSubUA_cons_inv hl hr he (hu a (by simp))
    obtain ⟨z', hz', hv'⟩ := ih (fun b hb => hu b (by simp [hb])) hv.symm
    exact ⟨z', by rw [hz₁, hz', List.cons_append], hv'⟩

theorem reSubUA_pfx_reflect {lit : List Char} {lc : Char} {lr rr : List Char}
    (hl : lit = lc :: lr) {sep : Char} {rep : List Char} (hr : rep = lc :: rr)
    {z w : List Char} (hw : ∀ a ∈ w, a ≠ lc)
    (hpre : w <+: reSubUA lit sep rep z) : w <+: z := by
  obtain ⟨v, hv⟩ := hpre
  obtain ⟨z', hz', _⟩ := reSubUA_peel hl hr w hw hv.symm
  exact ⟨z', hz'.symm⟩

theorem reSubUA_pfx_reflect_mark {lit : List Char} {lc : Char} {lr rr : List Char}
    (hl : lit = lc :: lr) {sep : Char} {rep : List Char} (hr : rep = lc :: rr)
    {z w : List Char} (hw : ∀ a ∈ w, a ≠ lc)
    (hpre : (w ++ [lc]) <+: reSubUA lit sep rep z) : (w ++ [lc]) <+: z := by
  obtain ⟨v, hv⟩ := hpre
  rw [List.append_assoc] at hv
  obtain ⟨z', hz', hv'⟩ := reSubUA_peel hl hr w hw hv.symm
  have hh := @reSubUA_head lit lc lr rr hl sep rep hr z'
  rw [hv'] at hh
  match z', hh with
  | lc' :: z'', hh =>
    simp only [List.singleton_append, List.head?_cons, Option.some.injEq] at hh
    refine ⟨z'', ?_⟩
    rw [List.append_assoc, List.singleton_append, hh, ← hz']
  | [], hh => simp at hh

/-! Characters of the output come from the input or the replacement. -/

theorem reSubUA_mem_aux {lit : List Char} {sep : Char} {rep : List Char} :
    ∀ (n : Nat) (z : List Char), z.length ≤ n →
      ∀ a ∈ reSubUA lit sep rep z, a ∈ z ∨ a ∈ rep := by
  intro n
  induction n with
  | zero =>
    intro z hz a ha
    have hznil : z = [] := List.length_eq_zero.mp (Nat.le_zero.mp hz)
    subst hznil
    rw [reSubUA_nil] at ha
    simp at ha
  | succ n ih =>
    intro z hz a ha
    match z with
    | [] => rw [reSubUA_nil] at ha; simp at ha
    | c :: cs =>
      cases hm : uaMatch lit sep (c :: cs) with
      | some r =>
        rw [reSubUA_cons_some hm] at ha
        rcases List.mem_append.mp ha with h | h
        · exact Or.inr h
        · have hrlen : r.length ≤ n := by
            have := uaMatch_length_lt hm
            simp only [List.length_cons] at this hz
            omega
          rcases ih r hrlen a h with h' | h'
          · left
            obtain ⟨w, _, _, hs⟩ := uaMatch_some_iff.mp hm
            rw [hs]
            simp [h']
          · exact Or.inr h'
      | none =>
        rw [reSubUA_cons_none hm] at ha
        rcases List.mem_cons.mp ha with h | h
        · left; simp [h]
        · have hcslen : cs.length ≤ n := by
            simp only [List.length_cons] at hz; omega
          rcases ih cs hcslen a h with h' | h'
          · left; simp [h']
          · exact Or.inr h'

theorem reSubUA_mem {lit : List Char} {sep : Char} {rep : List Char}
    {z : List Char} {a : Char} (ha : a ∈ reSubUA lit sep rep z) :
    a ∈ z ∨ a ∈ rep :=
  reSubUA_mem_aux z.length z le_rfl a ha

/-! A failed match body: empty run, immediate separator, or no closing
separator. -/

theorem exists_sep_split {sep : Char} :
    ∀ (t : List Char), sep ∈ t →
      ∃ w x, (∀ a ∈ w, a ≠ sep) ∧ t = w ++ sep :: x := by
  intro t
  induction t with
  | nil => intro h; simp at h
  | cons a t₂ ih =>
    intro h
    by_cases ha : a = sep
    · exact ⟨[], t₂, by simp, by rw [ha]; rfl⟩
    · have hmem : sep ∈ t₂ := by
        rcases List.mem_cons.mp h with h' | h'
        · exact absurd h'.symm ha
        · exact h'
      obtain ⟨w, x, hw, ht⟩ := ih hmem
      refine ⟨a :: w, x, ?_, by rw [ht]; rfl⟩
      intro b hb
      rcases List.mem_cons.mp hb with h' | h'
      · rw [h']; exact ha
      · exact hw b h'

theorem uaMatchBody_none_cases {sep : Char} {t : List Char}
    (h : uaMatchBody sep t = none) :
    t = [] ∨ t.head? = some sep ∨ (∀ a ∈ t, a ≠ sep) := by
  match t with
  | [] => exact Or.inl rfl
  | a :: t₂ =>
    by_cases ha : a = sep
    · exact Or.inr (Or.inl (by simp [ha]))
    · by_cases hsep : sep ∈ a :: t₂
      · exfalso
        obtain ⟨w, x, hw, ht⟩ := exists_sep_split _ hsep
        have hwne : w ≠ [] := by
          intro h0
          rw [h0, List.nil_append] at ht
          simp only [List.cons.injEq] at ht
          exact ha ht.1
        have hsome : uaMatchBody sep (a :: t₂) = some x :=
          uaMatchBody_some_iff.mpr ⟨w, hwne, hw, ht⟩
        rw [hsome] at h
        cases h
      · exact Or.inr (Or.inr (fun b hb hbs => hsep (hbs ▸ hb)))

/-! ## The `sep ++ core ++ sep ++ [^sep]+ ++ sep` pattern shape

Both `/Users/[^/]+/` and `\Users\[^\]+\` have this shape; the
replacement re-emits the literal with the run replaced by `user`. -/

def uaLit (sep : Char) (core : List Char) : List Char := sep :: (core ++ [sep])

def uaRep (sep : Char) (core user : List Char) : List Char :=
  uaLit sep core ++ (user ++ [sep])

def SepShape (sep : Char) (core user : List Char) : Prop :=
  core ≠ [] ∧ (∀ a ∈ core, a ≠ sep) ∧ user ≠ [] ∧ (∀ a ∈ user, a ≠ sep)

theorem uaLit_cons (sep : Char) (core : List Char) :
    uaLit sep core = sep :: (core ++ [sep]) := rfl

theorem uaRep_cons (sep : Char) (core user : List Char) :
    uaRep sep core user = sep :: ((core ++ [sep]) ++ (user ++ [sep])) := rfl

theorem uaMatch_rep_append {sep : Char} {core user : List Char}
    (hs : SepShape sep core user) (z : List Char) :
    uaMatch (uaLit sep core) sep (uaRep sep core user ++ z) = some z := by
  obtain ⟨_, _, hune, huf⟩ := hs
  have he : uaRep sep core user ++ z = uaLit sep core ++ (user ++ sep :: z) := by
    simp only [uaRep, List.append_assoc, List.singleton_append]
  rw [he]
  exact uaMatch_some_iff.mpr ⟨user, hune, huf, rfl⟩

theorem reSubUA_rep_append {sep : Char} {core user : List Char}
    (hs : SepShape sep core user) (z : List Char) :
    reSubUA (uaLit sep core) sep (uaRep sep core user) (uaRep sep core user ++ z) =
      uaRep sep core user ++ reSubUA (uaLit sep core) sep (uaRep sep core user) z :=
  reSubUA_of_match (uaMatch_rep_append hs z)

/-! Failure of the match at a position is stable under substituting in the
tail: the substitution's output cannot create a fresh match site. -/

theorem uaMatch_none_sub_self {sep : Char} {core user : List Char}
    (hs : SepShape sep core user) {c : Char} {cs : List Char}
    (h : uaMatch (uaLit sep core) sep (c :: cs) = none) :
    uaMatch (uaLit sep core) sep
      (c :: reSubUA (uaLit sep core) sep (uaRep sep core user) cs) = none := by
  obtain ⟨hcne, hcf, hune, huf⟩ := hs
  cases hm : uaMatch (uaLit sep core) sep
      (c :: reSubUA (uaLit sep core) sep (uaRep sep core user) cs) with
  | none => rfl
  | some r =>
    exfalso
    obtain ⟨w, hwne, hwf, hsEq⟩ := uaMatch_some_iff.mp hm
    have hsEq' : c :: reSubUA (uaLit sep core) sep (uaRep sep core user) cs =
        sep :: ((core ++ [sep]) ++ (w ++ sep :: r)) := by
      rw [hsEq]; rfl
    simp only [List.cons.injEq] at hsEq'
    obtain ⟨hcsep, htail⟩ := hsEq'
    have hpre : (core ++ [sep]) <+:
        reSubUA (uaLit sep core) sep (uaRep sep core user) cs :=
      ⟨w ++ sep :: r, htail.symm⟩
    have hpre' := reSubUA_pfx_reflect_mark (uaLit_cons sep core)
      (uaRep_cons sep core user) hcf hpre
    obtain ⟨cs', hcs⟩ := hpre'
    have hcs' : cs = core ++ (sep :: cs') := by
      rw [← hcs, List.append_assoc, List.singleton_append]
    have hScs : reSubUA (uaLit sep core) sep (uaRep sep core user) cs =
        core ++ reSubUA (uaLit sep core) sep (uaRep sep core user) (sep :: cs') := by
      rw [hcs']
      exact reSubUA_copy_append (uaLit_cons sep core) hcf (sep :: cs')
    rw [hScs] at htail
    have htail' : reSubUA (uaLit sep core) sep (uaRep sep core user) (sep :: cs') =
        sep :: (w ++ sep :: r) := by
      have h2 : (core ++ [sep]) ++ (w ++ sep :: r) =
          core ++ (sep :: (w ++ sep :: r)) := by
        rw [List.append_assoc, List.singleton_append]
      rw [h2] at htail
      exact List.append_cancel_left htail
    have hlitcs : c :: cs = uaLit sep core ++ cs' := by
      rw [hcsep, hcs', uaLit_cons]
      simp [List.append_assoc]
    rw [hlitcs, uaMatch_lit_append] at h
    cases hm2 : uaMatch (uaLit sep core) sep (sep :: cs') with
    | some r₂ =>
      obtain ⟨w₂, hw₂ne, hw₂f, hsEq₂⟩ := uaMatch_some_iff.mp hm2
      rw [uaLit_cons, List.cons_append, List.cons.injEq] at hsEq₂
      obtain ⟨_, htail₂⟩ := hsEq₂
      have hcs'' : cs' = core ++ (sep :: (w₂ ++ sep :: r₂)) := by
        rw [htail₂, List.append_assoc, List.singleton_append]
      have : uaMatchBody sep cs' = some (w₂ ++ sep :: r₂) :=
        uaMatchBody_some_iff.mpr ⟨core, hcne, hcf, hcs''⟩
      rw [this] at h
      cases h
    | none =>
      rw [reSubUA_cons_none hm2] at htail'
      simp only [List.cons.injEq] at htail'
      have hScs' : reSubUA (uaLit sep core) sep (uaRep sep core user) cs' =
          w ++ sep :: r := htail'.2
      rcases uaMatchBody_none_cases h with h0 | h0 | h0
      · rw [h0, reSubUA_nil] at hScs'
        exact List.noConfusion (List.append_eq_nil.mp hScs'.symm).2
      · have hh := @reSubUA_head (uaLit sep core) sep (core ++ [sep])
          ((core ++ [sep]) ++ (user ++ [sep])) (uaLit_cons sep core) sep
          (uaRep sep core user) (uaRep_cons sep core user) cs'
        rw [hScs', h0] at hh
        match w, hh with
        | [], _ => exact hwne rfl
        | a :: w', hh =>
          simp only [List.cons_append, List.head?_cons, Option.some.injEq] at hh
          exact hwf a (by simp) hh
      · have hself : reSubUA (uaLit sep core) sep (uaRep sep core user) cs' = cs' :=
          reSubUA_eq_self_of_ne_head (uaLit_cons sep core) h0
        rw [hself] at hScs'
        have : sep ∈ cs' := by
          rw [hScs']
          simp
        exact h0 sep this rfl

/-! Self-idempotence of a shape substitution. -/

theorem reSubUA_self_aux {sep : Char} {core user : List Char}
    (hs : SepShape sep core user) :
    ∀ (n : Nat) (x : List Char), x.length ≤ n →
      reSubUA (uaLit sep core) sep (uaRep sep core user)
        (reSubUA (uaLit sep core) sep (uaRep sep core user) x) =
      reSubUA (uaLit sep core) sep (uaRep sep core user) x := by
  intro n
  induction n with
  | zero =>
    intro x hx
    have hnil : x = [] := List.length_eq_zero.mp (Nat.le_zero.mp hx)
    rw [hnil, reSubUA_nil, reSubUA_nil]
  | succ n ih =>
    intro x hx
    match x with
    | [] => rw [reSubUA_nil, reSubUA_nil]
    | c :: cs =>
      cases hm : uaMatch (uaLit sep core) sep (c :: cs) with
      | some r =>
        have hr : r.length ≤ n := by
          have := uaMatch_length_lt hm
          simp only [List.length_cons] at this hx
          omega
        rw [reSubUA_cons_some hm, reSubUA_rep_append hs, ih r hr]
      | none =>
        have hcs : cs.length ≤ n := by
          simp only [List.length_cons] at hx; omega
        rw [reSubUA_cons_none hm,
          reSubUA_cons_none (uaMatch_none_sub_self hs hm), ih cs hcs]

theorem reSubUA_self {sep : Char} {core user : List Char}
    (hs : SepShape sep core user) (x : List Char) :
    reSubUA (uaLit sep core) sep (uaRep sep core user)
      (reSubUA (uaLit sep core) sep (uaRep sep core user) x) =
    reSubUA (uaLit sep core) sep (uaRep sep core user) x :=
  reSubUA_self_aux hs x.length x le_rfl

/-! ## Interaction of two shape substitutions with distinct separators -/

theorem uaLit_free {sa sb : Char} {ca : List Char} (h1 : sa ≠ sb)
    (h2 : ∀ x ∈ ca, x ≠ sb) :
    ∀ x ∈ uaLit sa ca, x ≠ sb := by
  intro x hx
  unfold uaLit at hx
  rcases List.mem_cons.mp hx with rfl | hx
  · exact h1
  · rcases List.mem_append.mp hx with hx | hx
    · exact h2 x hx
    · rw [List.mem_singleton.mp hx]; exact h1

theorem uaRep_free {sa sb : Char} {ca ua : List Char} (h1 : sa ≠ sb)
    (h2 : ∀ x ∈ ca, x ≠ sb) (h3 : ∀ x ∈ ua, x ≠ sb) :
    ∀ x ∈ uaRep sa ca ua, x ≠ sb := by
  intro x hx
  unfold uaRep at hx
  rcases List.mem_append.mp hx with hx | hx
  · exact uaLit_free h1 h2 x hx
  · rcases List.mem_append.mp hx with hx | hx
    · exact h3 x hx
    · rw [List.mem_singleton.mp hx]; exact h1

theorem uaRep_length_pos (sep : Char) (core user : List Char) :
    0 < (uaRep sep core user).length := by
  rw [uaRep_cons]; simp

theorem split_append_not_mem {sb : Char} :
    ∀ (v : List Char), (∀ x ∈ v, x ≠ sb) → ∀ (u r m : List Char),
      u ++ sb :: r = v ++ m → ∃ u', u = v ++ u' ∧ m = u' ++ sb :: r := by
  intro v
  induction v with
  | nil =>
    intro _ u r m h
    exact ⟨u, rfl, by simpa using h.symm⟩
  | cons b v' ih =>
    intro hv u r m h
    cases u with
    | nil =>
      simp only [List.nil_append, List.cons_append, List.cons.injEq] at h
      exact absurd h.1 (hv b (by simp)).symm
    | cons a u₀ =>
      simp only [List.cons_append, List.cons.injEq] at h
      obtain ⟨hab, h'⟩ := h
      obtain ⟨u', hu', hm⟩ := ih (fun x hx => hv x (by simp [hx])) u₀ r m h'
      exact ⟨u', by rw [hab, hu']; rfl, hm⟩

/-! A fixed point of a shape substitution that matches at its head starts
with a full replacement block. -/

theorem fixed_match_structure {sep : Char} {core user : List Char}
    (hs : SepShape sep core user) {y m : List Char}
    (hfix : reSubUA (uaLit sep core) sep (uaRep sep core user) y = y)
    (hm : uaMatch (uaLit sep core) sep y = some m) :
    y = uaRep sep core user ++ m ∧
      reSubUA (uaLit sep core) sep (uaRep sep core user) m = m := by
  obtain ⟨hcne, hcf, hune, huf⟩ := hs
  obtain ⟨w, hwne, hwf, hy⟩ := uaMatch_some_iff.mp hm
  have hSy := @reSubUA_of_match (uaLit sep core) sep (uaRep sep core user) y m hm
  rw [hfix] at hSy
  have h2 : ∀ (z : List Char), uaRep sep core user ++ z =
      uaLit sep core ++ (user ++ sep :: z) := by
    intro z
    simp only [uaRep, List.append_assoc, List.singleton_append]
  have h3 : uaLit sep core ++ (w ++ sep :: m) =
      uaLit sep core ++ (user ++ sep :: reSubUA (uaLit sep core) sep
        (uaRep sep core user) m) := by
    rw [← hy, hSy, h2]
  have hcancel := List.append_cancel_left h3
  obtain ⟨hw_eq, hm_eq⟩ := sepFree_sep_cancel w hwf user m _ huf hcancel
  refine ⟨?_, hm_eq.symm⟩
  rw [hy, hw_eq, h2, hm_eq]

/-! Dropping everything up to a foreign separator preserves fixed points. -/

theorem fixed_drop_sepB {sa : Char} {ca ua : List Char}
    (hs : SepShape sa ca ua) {sb : Char} (hne : sa ≠ sb)
    (hcaB : ∀ x ∈ ca, x ≠ sb) (huaB : ∀ x ∈ ua, x ≠ sb) :
    ∀ (n : Nat) (a r : List Char), a.length ≤ n →
      reSubUA (uaLit sa ca) sa (uaRep sa ca ua) (a ++ sb :: r) = a ++ sb :: r →
      reSubUA (uaLit sa ca) sa (uaRep sa ca ua) r = r := by
  intro n
  induction n with
  | zero =>
    intro a r ha hfix
    have hnil : a = [] := List.length_eq_zero.mp (Nat.le_zero.mp ha)
    subst hnil
    rw [List.nil_append] at hfix
    have hm : uaMatch (uaLit sa ca) sa (sb :: r) = none :=
      uaMatch_none_of_head_ne (uaLit_cons sa ca) (fun h => hne h.symm)
    rw [reSubUA_cons_none hm] at hfix
    simpa using hfix
  | succ n ih =>
    intro a r ha hfix
    match a with
    | [] =>
      rw [List.nil_append] at hfix
      have hm : uaMatch (uaLit sa ca) sa (sb :: r) = none :=
        uaMatch_none_of_head_ne (uaLit_cons sa ca) (fun h => hne h.symm)
      rw [reSubUA_cons_none hm] at hfix
      simpa using hfix
    | c :: a' =>
      rw [List.cons_append] at hfix
      cases hm : uaMatch (uaLit sa ca) sa (c :: (a' ++ sb :: r)) with
      | none =>
        rw [reSubUA_cons_none hm] at hfix
        simp only [List.cons.injEq] at hfix
        exact ih a' r (by simp only [List.length_cons] at ha; omega) hfix.2
      | some m =>
        have hfix' : reSubUA (uaLit sa ca) sa (uaRep sa ca ua)
            ((c :: a') ++ sb :: r) = (c :: a') ++ sb :: r := by
          rw [List.cons_append]; exact hfix
        obtain ⟨hy, hmfix⟩ := fixed_match_structure hs hfix' (by
          rw [List.cons_append]; exact hm)
        have hrepfree : ∀ x ∈ uaRep sa ca ua, x ≠ sb := uaRep_free hne hcaB huaB
        obtain ⟨u', hu', hm'⟩ :=
          split_append_not_mem (uaRep sa ca ua) hrepfree (c :: a') r m hy
        have hu'len : u'.length ≤ n := by
          have hlen := congrArg List.length hu'
          have hpos := uaRep_length_pos sa ca ua
          simp only [List.length_cons, List.length_append] at hlen ha
          omega
        rw [hm'] at hmfix
        exact ih u' r hu'len hmfix

/-! Failure of an `A`-match is stable under a `B`-substitution in the
tail, for distinct separators. -/

theorem uaMatch_none_sub_cross {sa : Char} {ca : List Char}
    {sb : Char} {cb ub : List Char} (hsB : SepShape sb cb ub)
    (hne : sa ≠ sb) (hcaB : ∀ x ∈ ca, x ≠ sb)
    (hcbA : ∀ x ∈ cb, x ≠ sa) (hubA : ∀ x ∈ ub, x ≠ sa)
    {c : Char} {cs : List Char}
    (h : uaMatch (uaLit sa ca) sa (c :: cs) = none) :
    uaMatch (uaLit sa ca) sa
      (c :: reSubUA (uaLit sb cb) sb (uaRep sb cb ub) cs) = none := by
  cases hm : uaMatch (uaLit sa ca) sa
      (c :: reSubUA (uaLit sb cb) sb (uaRep sb cb ub) cs) with
  | none => rfl
  | some r =>
    exfalso
    obtain ⟨w, hwne, hwf, hsEq⟩ := uaMatch_some_iff.mp hm
    have hsEq' : c :: reSubUA (uaLit sb cb) sb (uaRep sb cb ub) cs =
        sa :: ((ca ++ [sa]) ++ (w ++ sa :: r)) := by
      rw [hsEq]; rfl
    simp only [List.cons.injEq] at hsEq'
    obtain ⟨hcsep, htail⟩ := hsEq'
    have hfreeB : ∀ x ∈ ca ++ [sa], x ≠ sb := by
      intro x hx
      rcases List.mem_append.mp hx with hx | hx
      · exact hcaB x hx
      · rw [List.mem_singleton.mp hx]; exact hne
    obtain ⟨cs', hcs, hScs'⟩ := reSubUA_peel (uaLit_cons sb cb)
      (uaRep_cons sb cb ub) (ca ++ [sa]) hfreeB htail
    have hlitcs : c :: cs = uaLit sa ca ++ cs' := by
      rw [hcsep, hcs, uaLit_cons]
      rfl
    rw [hlitcs, uaMatch_lit_append] at h
    rcases uaMatchBody_none_cases h with h0 | h0 | h0
    · rw [h0, reSubUA_nil] at hScs'
      exact List.noConfusion (List.append_eq_nil.mp hScs'.symm).2
    · have hh := @reSubUA_head (uaLit sb cb) sb (cb ++ [sb])
        ((cb ++ [sb]) ++ (ub ++ [sb])) (uaLit_cons sb cb) sb
        (uaRep sb cb ub) (uaRep_cons sb cb ub) cs'
      rw [hScs', h0] at hh
      match w, hh with
      | [], _ => exact hwne rfl
      | a :: w', hh =>
        simp only [List.cons_append, List.head?_cons, Option.some.injEq] at hh
        exact hwf a (by simp) hh
    · have hmem : sa ∈ reSubUA (uaLit sb cb) sb (uaRep sb cb ub) cs' := by
        rw [hScs']
        simp
      rcases reSubUA_mem hmem with hx | hx
      · exact h0 sa hx rfl
      · exact uaRep_free hne.symm hcbA hubA sa hx rfl

/-! A fixed point of substitution `A` stays fixed after substitution `B`,
for shapes over distinct separators avoiding each other's alphabet. -/

theorem fixed_sub_cross_aux {sa : Char} {ca ua : List Char}
    (hsA : SepShape sa ca ua) {sb : Char} {cb ub : List Char}
    (hsB : SepShape sb cb ub) (hne : sa ≠ sb)
    (hcaB : ∀ x ∈ ca, x ≠ sb) (huaB : ∀ x ∈ ua, x ≠ sb)
    (hcbA : ∀ x ∈ cb, x ≠ sa) (hubA : ∀ x ∈ ub, x ≠ sa) :
    ∀ (n : Nat) (y : List Char), y.length ≤ n →
      reSubUA (uaLit sa ca) sa (uaRep sa ca ua) y = y →
      reSubUA (uaLit sa ca) sa (uaRep sa ca ua)
        (reSubUA (uaLit sb cb) sb (uaRep sb cb ub) y) =
      reSubUA (uaLit sb cb) sb (uaRep sb cb ub) y := by
  intro n
  induction n with
  | zero =>
    intro y hy _
    have hnil : y = [] := List.length_eq_zero.mp (Nat.le_zero.mp hy)
    subst hnil
    rw [reSubUA_nil, reSubUA_nil]
  | succ n ih =>
    intro y hy hfix
    cases hmA : uaMatch (uaLit sa ca) sa y with
    | some m =>
      obtain ⟨hy_eq, hmfix⟩ := fixed_match_structure hsA hfix hmA
      have hrepAfree : ∀ x ∈ uaRep sa ca ua, x ≠ sb := uaRep_free hne hcaB huaB
      have hSB : reSubUA (uaLit sb cb) sb (uaRep sb cb ub) y =
          uaRep sa ca ua ++ reSubUA (uaLit sb cb) sb (uaRep sb cb ub) m := by
        rw [hy_eq]
        exact reSubUA_copy_append (uaLit_cons sb cb) hrepAfree m
      have hmlen : m.length ≤ n := by
        have hlen := congrArg List.length hy_eq
        have hpos := uaRep_length_pos sa ca ua
        simp only [List.length_append] at hlen
        omega
      have hfixSBm := ih m hmlen hmfix
      rw [hSB, reSubUA_rep_append hsA, hfixSBm]
    | none =>
      match y with
      | [] => rw [reSubUA_nil, reSubUA_nil]
      | c :: cs =>
        have hfix_cs : reSubUA (uaLit sa ca) sa (uaRep sa ca ua) cs = cs := by
          rw [reSubUA_cons_none hmA] at hfix
          simpa using hfix
        cases hmB : uaMatch (uaLit sb cb) sb (c :: cs) with
        | some mB =>
          obtain ⟨wB, hwBne, hwBf, hyB⟩ := uaMatch_some_iff.mp hmB
          have hyB' : c :: cs = (uaLit sb cb ++ wB) ++ sb :: mB := by
            rw [hyB, List.append_assoc]
          have hfixmB : reSubUA (uaLit sa ca) sa (uaRep sa ca ua) mB = mB := by
            refine fixed_drop_sepB hsA hne hcaB huaB
              (uaLit sb cb ++ wB).length (uaLit sb cb ++ wB) mB le_rfl ?_
            rw [← hyB']
            exact hfix
          have hmBlen : mB.length ≤ n := by
            have hlt := uaMatch_length_lt hmB
            simp only [List.length_cons] at hlt hy
            omega
          have hfixSBmB := ih mB hmBlen hfixmB
          rw [reSubUA_cons_some hmB]
          have hrepBfree : ∀ x ∈ uaRep sb cb ub, x ≠ sa :=
            uaRep_free hne.symm hcbA hubA
          rw [reSubUA_copy_append (uaLit_cons sa ca) hrepBfree _, hfixSBmB]
        | none =>
          rw [reSubUA_cons_none hmB]
          have hcslen : cs.length ≤ n := by
            simp only [List.length_cons] at hy; omega
          have hfixSBcs := ih cs hcslen hfix_cs
          rw [reSubUA_cons_none
            (uaMatch_none_sub_cross hsB hne hcaB hcbA hubA hmA), hfixSBcs]

theorem fixed_sub_cross {sa : Char} {ca ua : List Char}
    (hsA : SepShape sa ca ua) {sb : Char} {cb ub : List Char}
    (hsB : SepShape sb cb ub) (hne : sa ≠ sb)
    (hcaB : ∀ x ∈ ca, x ≠ sb) (huaB : ∀ x ∈ ua, x ≠ sb)
    (hcbA : ∀ x ∈ cb, x ≠ sa) (hubA : ∀ x ∈ ub, x ≠ sa)
    {y : List Char}
    (hfix : reSubUA (uaLit sa ca) sa (uaRep sa ca ua) y = y) :
    reSubUA (uaLit sa ca) sa (uaRep sa ca ua)
      (reSubUA (uaLit sb cb) sb (uaRep sb cb ub) y) =
    reSubUA (uaLit sb cb) sb (uaRep sb cb ub) y :=
  fixed_sub_cross_aux hsA hsB hne hcaB huaB hcbA hubA y.length y le_rfl hfix

/-! A shape match at the head of the substitution's own output reflects to
a match at the head of the input, and the remainders correspond. -/

theorem reflect_match_on_sub {sep : Char} {core user : List Char}
    (hs : SepShape sep core user) {z r : List Char}
    (h : uaMatch (uaLit sep core) sep
      (reSubUA (uaLit sep core) sep (uaRep sep core user) z) = some r) :
    ∃ m, uaMatch (uaLit sep core) sep z = some m ∧
      r = reSubUA (uaLit sep core) sep (uaRep sep core user) m := by
  obtain ⟨hcne, hcf, hune, huf⟩ := hs
  obtain ⟨w, hwne, hwf, hSz⟩ := uaMatch_some_iff.mp h
  cases hm : uaMatch (uaLit sep core) sep z with
  | some m =>
    refine ⟨m, rfl, ?_⟩
    have hSz' := @reSubUA_of_match (uaLit sep core) sep (uaRep sep core user) z m hm
    rw [hSz'] at hSz
    have h2 : uaRep sep core user ++
        reSubUA (uaLit sep core) sep (uaRep sep core user) m =
        uaLit sep core ++ (user ++ sep ::
          reSubUA (uaLit sep core) sep (uaRep sep core user) m) := by
      simp only [uaRep, List.append_assoc, List.singleton_append]
    rw [h2] at hSz
    have hc := List.append_cancel_left hSz
    obtain ⟨_, h3⟩ := sepFree_sep_cancel user huf w _ r hwf hc
    exact h3.symm
  | none =>
    exfalso
    have hSz' : reSubUA (uaLit sep core) sep (uaRep sep core user) z =
        sep :: ((core ++ [sep]) ++ (w ++ sep :: r)) := by
      rw [hSz]; rfl
    match z with
    | [] => rw [reSubUA_nil] at hSz'; cases hSz'
    | d :: z₂ =>
      rw [reSubUA_cons_none hm] at hSz'
      simp only [List.cons.injEq] at hSz'
      obtain ⟨hd, hSz₂⟩ := hSz'
      have hSz₂' : reSubUA (uaLit sep core) sep (uaRep sep core user) z₂ =
          core ++ (sep :: (w ++ sep :: r)) := by
        rw [hSz₂, List.append_assoc, List.singleton_append]
      obtain ⟨z₃, hz₃, hSz₃⟩ := reSubUA_peel (uaLit_cons sep core)
        (uaRep_cons sep core user) core hcf hSz₂'
      match z₃, hSz₃ with
      | [], hSz₃ =>
        rw [reSubUA_nil] at hSz₃
        cases hSz₃
      | e :: z₄, hSz₃ =>
        cases hm₃ : uaMatch (uaLit sep core) sep (e :: z₄) with
        | some m₃ =>
          obtain ⟨w₃, hw₃ne, hw₃f, hz₃s⟩ := uaMatch_some_iff.mp hm₃
          have hz_eq : d :: z₂ = uaLit sep core ++
              ((core ++ [sep]) ++ (w₃ ++ sep :: m₃)) := by
            rw [hd, hz₃, hz₃s, uaLit_cons]
            simp [List.append_assoc]
          rw [hz_eq, uaMatch_lit_append] at hm
          have hbody : uaMatchBody sep ((core ++ [sep]) ++ (w₃ ++ sep :: m₃)) =
              some (w₃ ++ sep :: m₃) := by
            refine uaMatchBody_some_iff.mpr ⟨core, hcne, hcf, ?_⟩
            rw [List.append_assoc, List.singleton_append]
          rw [hbody] at hm
          cases hm
        | none =>
          rw [reSubUA_cons_none hm₃] at hSz₃
          simp only [List.cons.injEq] at hSz₃
          obtain ⟨he, hSz₄⟩ := hSz₃
          have hz_eq : d :: z₂ = uaLit sep core ++ z₄ := by
            rw [hd, hz₃, he, uaLit_cons]
            simp [List.append_assoc]
          rw [hz_eq, uaMatch_lit_append] at hm
          rcases uaMatchBody_none_cases hm with h0 | h0 | h0
          · rw [h0, reSubUA_nil] at hSz₄
            exact List.noConfusion (List.append_eq_nil.mp hSz₄.symm).2
          · have hh := @reSubUA_head (uaLit sep core) sep (core ++ [sep])
              ((core ++ [sep]) ++ (user ++ [sep])) (uaLit_cons sep core) sep
              (uaRep sep core user) (uaRep_cons sep core user) z₄
            rw [hSz₄, h0] at hh
            match w, hh with
            | [], _ => exact hwne rfl
            | a :: w', hh =>
              simp only [List.cons_append, List.head?_cons,
                Option.some.injEq] at hh
              exact hwf a (by simp) hh
          · have hself : reSubUA (uaLit sep core) sep (uaRep sep core user) z₄ =
                z₄ := reSubUA_eq_self_of_ne_head (uaLit_cons sep core) h0
            rw [hself] at hSz₄
            have hmem : sep ∈ z₄ := by rw [hSz₄]; simp
            exact h0 sep hmem rfl

/-! A prefixed variant of the same shape: `uaMatch` through the prefix. -/

theorem uaMatchC_some_iff {pfx : List Char} {sep : Char} {core : List Char}
    {z r : List Char} :
    uaMatch (pfx ++ uaLit sep core) sep z = some r ↔
      ∃ t, z = pfx ++ t ∧ uaMatch (uaLit sep core) sep t = some r := by
  constructor
  · intro h
    obtain ⟨w, hwne, hwf, hz⟩ := uaMatch_some_iff.mp h
    refine ⟨uaLit sep core ++ (w ++ sep :: r), ?_, ?_⟩
    · rw [hz, List.append_assoc]
    · exact uaMatch_some_iff.mpr ⟨w, hwne, hwf, rfl⟩
  · rintro ⟨t, rfl, ht⟩
    obtain ⟨w, hwne, hwf, ht'⟩ := uaMatch_some_iff.mp ht
    exact uaMatch_some_iff.mpr ⟨w, hwne, hwf, by rw [ht', List.append_assoc]⟩

/-! The prefixed substitution is the identity on outputs of the base
substitution: every match it can find there is already in replaced form. -/

theorem absorb_pfx_sub_aux {sep : Char} {core user : List Char}
    (hs : SepShape sep core user) {pc : Char} {pr : List Char}
    (hpcs : sep ≠ pc) (hpcc : ∀ x ∈ core, x ≠ pc) (hpcu : ∀ x ∈ user, x ≠ pc)
    (hprs : ∀ x ∈ pr, x ≠ sep) :
    ∀ (n : Nat) (x : List Char), x.length ≤ n →
      reSubUA ((pc :: pr) ++ uaLit sep core) sep
          ((pc :: pr) ++ uaRep sep core user)
        (reSubUA (uaLit sep core) sep (uaRep sep core user) x) =
      reSubUA (uaLit sep core) sep (uaRep sep core user) x := by
  intro n
  induction n with
  | zero =>
    intro x hx
    have hnil : x = [] := List.length_eq_zero.mp (Nat.le_zero.mp hx)
    subst hnil
    rw [reSubUA_nil, reSubUA_nil]
  | succ n ih =>
    intro x hx
    match x with
    | [] => rw [reSubUA_nil, reSubUA_nil]
    | c :: cs =>
      cases hmB : uaMatch (uaLit sep core) sep (c :: cs) with
      | some m =>
        rw [reSubUA_cons_some hmB]
        have hfree : ∀ a ∈ uaRep sep core user, a ≠ pc :=
          uaRep_free hpcs hpcc hpcu
        have hlC : (pc :: pr) ++ uaLit sep core =
            pc :: (pr ++ uaLit sep core) := rfl
        rw [reSubUA_copy_append hlC hfree _]
        have hmlen : m.length ≤ n := by
          have hlt := uaMatch_length_lt hmB
          simp only [List.length_cons] at hlt hx
          omega
        rw [ih m hmlen]
      | none =>
        rw [reSubUA_cons_none hmB]
        cases hmC : uaMatch ((pc :: pr) ++ uaLit sep core) sep
            (c :: reSubUA (uaLit sep core) sep (uaRep sep core user) cs) with
        | none =>
          rw [reSubUA_cons_none hmC]
          have hcslen : cs.length ≤ n := by
            simp only [List.length_cons] at hx; omega
          rw [ih cs hcslen]
        | some r₃ =>
          obtain ⟨t, hct, hmt⟩ := uaMatchC_some_iff.mp hmC
          rw [List.cons_append] at hct
          simp only [List.cons.injEq] at hct
          obtain ⟨hcpc, hcs_pr⟩ := hct
          obtain ⟨cs₂, hcs₂, hSB2⟩ := reSubUA_peel (uaLit_cons sep core)
            (uaRep_cons sep core user) pr hprs hcs_pr
          rw [← hSB2] at hmt
          obtain ⟨m₂, hm₂, hr₃⟩ := reflect_match_on_sub hs hmt
          rw [reSubUA_cons_some hmC, hr₃]
          have hm₂len : m₂.length ≤ n := by
            have hlt := uaMatch_length_lt hm₂
            have hlen := congrArg List.length hcs₂
            simp only [List.length_cons, List.length_append] at hlt hx hlen
            omega
          rw [ih m₂ hm₂len]
          rw [hcpc, hcs_pr, ← hSB2,
            @reSubUA_of_match (uaLit sep core) sep (uaRep sep core user)
              cs₂ m₂ hm₂]
          simp [List.append_assoc]

theorem absorb_pfx_sub {sep : Char} {core user : List Char}
    (hs : SepShape sep core user) {pc : Char} {pr : List Char}
    (hpcs : sep ≠ pc) (hpcc : ∀ x ∈ core, x ≠ pc) (hpcu : ∀ x ∈ user, x ≠ pc)
    (hprs : ∀ x ∈ pr, x ≠ sep) (x : List Char) :
    reSubUA ((pc :: pr) ++ uaLit sep core) sep
        ((pc :: pr) ++ uaRep sep core user)
      (reSubUA (uaLit sep core) sep (uaRep sep core user) x) =
    reSubUA (uaLit sep core) sep (uaRep sep core user) x :=
  absorb_pfx_sub_aux hs hpcs hpcc hpcu hprs x.length x le_rfl

/-! ## Idempotence of the three-step sanitizer composite -/

theorem triple_idem {sa : Char} {ca ua : List Char} (hsA : SepShape sa ca ua)
    {sb : Char} {cb ub : List Char} (hsB : SepShape sb cb ub)
    {pc : Char} {pr : List Char}
    (hne : sa ≠ sb) (hcaB : ∀ x ∈ ca, x ≠ sb) (huaB : ∀ x ∈ ua, x ≠ sb)
    (hcbA : ∀ x ∈ cb, x ≠ sa) (hubA : ∀ x ∈ ub, x ≠ sa)
    (hpcs : sb ≠ pc) (hpcc : ∀ x ∈ cb, x ≠ pc) (hpcu : ∀ x ∈ ub, x ≠ pc)
    (hprs : ∀ x ∈ pr, x ≠ sb) (p : List Char) :
    reSubUA ((pc :: pr) ++ uaLit sb cb) sb ((pc :: pr) ++ uaRep sb cb ub)
      (reSubUA (uaLit sb cb) sb (uaRep sb cb ub)
        (reSubUA (uaLit sa ca) sa (uaRep sa ca ua)
          (reSubUA ((pc :: pr) ++ uaLit sb cb) sb
              ((pc :: pr) ++ uaRep sb cb ub)
            (reSubUA (uaLit sb cb) sb (uaRep sb cb ub)
              (reSubUA (uaLit sa ca) sa (uaRep sa ca ua) p))))) =
    reSubUA ((pc :: pr) ++ uaLit sb cb) sb ((pc :: pr) ++ uaRep sb cb ub)
      (reSubUA (uaLit sb cb) sb (uaRep sb cb ub)
        (reSubUA (uaLit sa ca) sa (uaRep sa ca ua) p)) := by
  have habs := absorb_pfx_sub hsB hpcs hpcc hpcu hprs
  have hfix1 : reSubUA (uaLit sa ca) sa (uaRep sa ca ua)
      (reSubUA (uaLit sa ca) sa (uaRep sa ca ua) p) =
      reSubUA (uaLit sa ca) sa (uaRep sa ca ua) p := reSubUA_self hsA p
  have hfix2 := fixed_sub_cross hsA hsB hne hcaB huaB hcbA hubA hfix1
  rw [habs (reSubUA (uaLit sa ca) sa (uaRep sa ca ua) p), hfix2,
    reSubUA_self hsB (reSubUA (uaLit sa ca) sa (uaRep sa ca ua) p),
    habs (reSubUA (uaLit sa ca) sa (uaRep sa ca ua) p)]

theorem rgSanitize_idem (p : List Char) :
    rgSanitize (rgSanitize p) = rgSanitize p := by
  have e1l : litSlashUsers = uaLit '/' "Users".toList := by decide
  have e1r : "/Users/<user>/".toList =
      uaRep '/' "Users".toList "<user>".toList := by decide
  have e2l : litBackUsers = uaLit '\\' "Users".toList := by decide
  have e2r : "\\Users\\<user>\\".toList =
      uaRep '\\' "Users".toList "<user>".toList := by decide
  have e3l : litDriveUsers = ('C' :: [':']) ++ uaLit '\\' "Users".toList := by
    decide
  have e3r : "C:\\Users\\<user>\\".toList =
      ('C' :: [':']) ++ uaRep '\\' "Users".toList "<user>".toList := by decide
  have hs1 : SepShape '/' "Users".toList "<user>".toList :=
    ⟨by decide, by decide, by decide, by decide⟩
  have hs2 : SepShape '\\' "Users".toList "<user>".toList :=
    ⟨by decide, by decide, by decide, by decide⟩
  unfold rgSanitize
  rw [e1l, e1r, e2l, e2r, e3l, e3r]
  exact triple_idem hs1 hs2 (by decide) (by decide) (by decide) (by decide)
    (by decide) (by decide) (by decide) (by decide) (by decide) p

/-! ## JSON values and `json.dumps`

Python `dict`s flowing into reports are modelled as `Json` values; key
insertion order is preserved, as in Python.  `json.dumps` is modelled
with the default separators `', '` and `': '`; `sort_keys=True` sorts
object items by key (code-point lexicographic order) at every level.
Non-native values (datetimes) are already strings here, which subsumes
`default=str`.  Rationals stand for Python floats; their serialized text
is a decimal rendering, adequate because no proved statement depends on
the rendering of a float. -/

inductive Json where
  | str (s : List Char)
  | int (n : Int)
  | rat (q : ℚ)
  | bool (b : Bool)
  | null
  | arr (elems : List Json)
  | obj (fields : List (List Char × Json))

/-- JSON string escaping (the characters appearing in the repository's
reports need only quote and backslash treatment). -/
def escapeJson (s : List Char) : List Char :=
  s.flatMap fun c =>
    if c = '"' then ['\\', '"']
    else if c = '\\' then ['\\', '\\'] else [c]

/-- Code-point lexicographic order on strings, Python's `sorted` order
for `sort_keys=True`. -/
def lexLe : List Char → List Char → Bool
  | [], _ => true
  | _ :: _, [] => false
  | a :: as, b :: bs => if a = b then lexLe as bs else decide (a < b)

/-- `", "`-join. -/
def joinComma (parts : List (List Char)) : List Char :=
  match parts with
  | [] => []
  | p :: ps => p ++ ps.flatMap (fun q => ',' :: ' ' :: q)

/-- Decimal rendering of a rational: integers render like Python ints;
non-integers render as `num/den` (a stand-in for float repr, see the
section comment). -/
def ratRepr (q : ℚ) : List Char :=
  if q.den = 1 then (toString q.num).toList
  else (toString q.num).toList ++ '/' :: (toString q.den).toList

mutual

/-- `json.dumps(j)`; `sortKeys` selects `sort_keys=True`. -/
def dumps (sortKeys : Bool) : Json → List Char
  | .str s => '"' :: escapeJson s ++ ['"']
  | .int n => (toString n).toList
  | .rat q => ratRepr q
  | .bool b => if b then "true".toList else "false".toList
  | .null => "null".toList
  | .arr es => '[' :: joinComma (dumpsList sortKeys es) ++ [']']
  | .obj fs =>
    let pairs := dumpsFields sortKeys fs
    let pairs := if sortKeys then pairs.mergeSort (fun a b => lexLe a.1 b.1) else pairs
    '\x7b' :: joinComma (pairs.map fun p =>
      '"' :: escapeJson p.1 ++ '"' :: ':' :: ' ' :: p.2) ++ ['\x7d']

def dumpsList (sortKeys : Bool) : List Json → List (List Char)
  | [] => []
  | e :: es => dumps sortKeys e :: dumpsList sortKeys es

def dumpsFields (sortKeys : Bool) :
    List (List Char × Json) → List (List Char × List Char)
  | [] => []
  | (k, v) :: fs => (k, dumps sortKeys v) :: dumpsFields sortKeys fs

end

/-- `j.get(k)` on an object (first binding wins, as dict keys are
unique). -/
def jsonGet (j : Json) (k : List Char) : Option Json :=
  match j with
  | .obj fs => (fs.find? (fun p => p.1 = k)).map (fun p => p.2)
  | _ => none

/-- `k in j` for an object. -/
def jsonHasKey (j : Json) (k : List Char) : Bool := (jsonGet j k).isSome

/-! ## `report_generator.ReportGenerator` -/

/-- The privacy settings the report generator reads in `__init__`
(defaults are the `get` defaults of the source). -/
structure PrivacyConfig where
  allowFullPan : Bool := false
  redactPan : Bool := true
  showLast4Only : Bool := true
  hashSensitiveData : Bool := true
deriving DecidableEq, Repr

/-- `round(confidence, 3)` on a confidence carried in hundredths: every
such value is exact at three decimals already, so the rounding is the
identity and the result is the rational value of the hundredths. -/
def round3 (hundredths : Int) : ℚ := (hundredths : ℚ) / 100

/-- `round(x, 1)` (used for progress percentages). -/
def round1 (q : ℚ) : ℚ := (round (q * 10) : ℤ) / 10

/-- `ReportGenerator._calculate_priority`. -/
def calculate_priority (m : PANMatch) : List Char :=
  let score : Nat :=
    (if m.luhn_valid then 3 else 0) +
    (if !m.is_masked then 2 else 0) +
    (if m.confidence_score > 80 then 2 else 0) +
    (if m.card_type = .visa ∨ m.card_type = .mastercard ∨ m.card_type = .amex
     then 1 else 0)
  if score ≥ 5 then "critical".toList
  else if score ≥ 3 then "high".toList
  else if score ≥ 1 then "medium".toList
  else "low".toList

/-- `ReportGenerator._get_remediation_suggestions`. -/
def get_remediation_suggestions (m : PANMatch) : List (List Char) :=
  (if !m.is_masked && m.luhn_valid then
    ["URGENT: Unmasked valid PAN detected - secure immediately".toList] else []) ++
  (if m.luhn_valid then
    ["Implement PAN masking or tokenization".toList,
     "Review data retention policies".toList,
     "Ensure PCI-DSS compliance for data handling".toList] else []) ++
  (if m.confidence_score > 70 then
    ["High confidence match - verify and remediate".toList] else []) ++
  ["Consider data encryption at rest".toList,
   "Implement access controls and audit logging".toList]

/-- `pan_data` of one finding in `ReportGenerator._process_findings`:
when `allow_full_pan and not redact_pan`, the dict carries
`full_number`, `masked_number` and `hash`; otherwise only
`masked_number` and `hash`.  In both branches
`hash = sha256(raw_match) if raw_match else None`. -/
def panDataOf (sha256 : List Char → List Char) (cfg : PrivacyConfig)
    (m : PANMatch) : Json :=
  let hashVal : Json :=
    if m.raw_match ≠ [] then .str (sha256 m.raw_match) else .null
  if cfg.allowFullPan && !cfg.redactPan then
    .obj [("full_number".toList, .str m.raw_match),
          ("masked_number".toList, .str m.masked_match),
          ("hash".toList, hashVal)]
  else
    .obj [("masked_number".toList, .str m.masked_match),
          ("hash".toList, hashVal)]

/-- One finding dict of `ReportGenerator._process_findings`.
`sanitizeCtx` stands for `_sanitize_context` (email/SSN redaction and
truncation), which no claim concerns; the theorems quantify over it. -/
def findingOf (sha256 : List Char → List Char)
    (sanitizeCtx : List Char → List Char) (cfg : PrivacyConfig)
    (m : PANMatch) : Json :=
  .obj [("file_path".toList, .str (rgSanitize m.file_path)),
        ("line_number".toList, .int m.line_number),
        ("column_range".toList, .arr [.int m.column_start, .int m.column_end]),
        ("card_type".toList, .str m.card_type.value),
        ("luhn_valid".toList, .bool m.luhn_valid),
        ("confidence_score".toList, .rat (round3 m.confidence_score)),
        ("is_masked".toList, .bool m.is_masked),
        ("context".toList, .obj
          [("before".toList, .str (sanitizeCtx m.context_before)),
           ("after".toList, .str (sanitizeCtx m.context_after))]),
        ("remediation_priority".toList, .str (calculate_priority m)),
        ("remediation_suggestions".toList,
          .arr ((get_remediation_suggestions m).map Json.str)),
        ("pan_data".toList, panDataOf sha256 cfg m)]

/-- `ReportGenerator._process_findings`. -/
def process_findings (sha256 : List Char → List Char)
    (sanitizeCtx : List Char → List Char) (cfg : PrivacyConfig)
    (ms : List PANMatch) : List Json :=
  ms.map (findingOf sha256 sanitizeCtx cfg)

/-- Increment a counter key of a dict of counts, inserting it at the end
on first occurrence (`d[k] = d.get(k, 0) + 1`). -/
def bumpCount (fields : List (List Char × Json)) (k : List Char) :
    List (List Char × Json) :=
  if fields.any (fun p => p.1 = k) then
    fields.map (fun p =>
      if p.1 = k then
        (p.1, match p.2 with | .int n => Json.int (n + 1) | v => v)
      else p)
  else fields ++ [(k, .int 1)]

/-- `ReportGenerator._categorize_findings`. -/
def categorize_findings (ms : List PANMatch) : Json :=
  let byCard := ms.foldl (fun acc m => bumpCount acc m.card_type.value) []
  let luhnValid := (ms.filter (fun m => m.luhn_valid)).length
  let luhnInvalid := (ms.filter (fun m => !m.luhn_valid)).length
  let high := (ms.filter (fun m => m.confidence_score > 80)).length
  let med := (ms.filter
    (fun m => ¬(m.confidence_score > 80) ∧ m.confidence_score > 50)).length
  let low := (ms.filter (fun m => ¬(m.confidence_score > 50))).length
  let masked := (ms.filter (fun m => m.is_masked)).length
  let unmasked := (ms.filter (fun m => !m.is_masked)).length
  .obj [("by_card_type".toList, .obj byCard),
        ("by_validation_status".toList, .obj
          [("luhn_valid".toList, .int luhnValid),
           ("luhn_invalid".toList, .int luhnInvalid)]),
        ("by_confidence".toList, .obj
          [("high".toList, .int high),
           ("medium".toList, .int med),
           ("low".toList, .int low)]),
        ("by_masking_status".toList, .obj
          [("masked".toList, .int masked),
           ("unmasked".toList, .int unmasked)])]

/-- `ReportGenerator._assess_risk`. -/
def assess_risk (ms : List PANMatch) : Json :=
  if ms.isEmpty then
    .obj [("overall_risk".toList, .str "low".toList),
          ("risk_factors".toList, .arr []),
          ("compliance_status".toList, .str "compliant".toList)]
  else
    let highRisk := ms.filter (fun m => m.luhn_valid && !m.is_masked)
    let riskFactors := highRisk.map (fun m =>
      Json.str ("Unmasked valid PAN in ".toList ++ m.file_path))
    let overall :=
      if highRisk.length > 0 then "critical".toList
      else if ms.length > 10 then "high".toList
      else if ms.length > 0 then "medium".toList
      else "low".toList
    let status :=
      if highRisk.length > 0 then "non-compliant".toList
      else if ms.length > 10 then "review-required".toList
      else if ms.length > 0 then "review-required".toList
      else "compliant".toList
    .obj [("overall_risk".toList, .str overall),
          ("risk_factors".toList, .arr (riskFactors.take 10)),
          ("compliance_status".toList, .str status),
          ("total_high_risk_findings".toList, .int highRisk.length)]

/-- `ReportGenerator._generate_recommendations`. -/
def generate_recommendations (ms : List PANMatch) : List (List Char) :=
  let base :=
    ["Implement regular PCI compliance scanning".toList,
     "Establish data retention and disposal policies".toList,
     "Implement strong access controls and authentication".toList,
     "Enable comprehensive audit logging".toList]
  let base :=
    if ms.any (fun m => !m.is_masked && m.luhn_valid) then
      "CRITICAL: Secure unmasked PANs immediately".toList ::
      "Implement PAN masking/tokenization solution".toList :: base
    else base
  if ms.length > 5 then
    base ++ ["Consider automated PAN discovery and classification".toList]
  else base

/-- The `scan_stats` dict fields `create_report` reads (with their `get`
defaults). -/
structure ScanStats where
  files_scanned : Nat := 0
  files_skipped : Nat := 0
  directories_scanned : Nat := 0
  errors : Nat := 0
  duration_seconds : Nat := 0
deriving DecidableEq, Repr

/-- The `config_summary` dict fields `create_report` reads (with their
`get` defaults). -/
structure ConfigSummary where
  scan_directories : Nat := 0
  exclude_patterns : Nat := 0
  detect_plain_pan : Bool := false
  action_policy : List Char := "report_only".toList
  max_file_size_mb : Nat := 10
  concurrency : Nat := 4
  privacy_redact_pan : Bool := true
  privacy_show_last4_only : Bool := true
deriving DecidableEq, Repr

/-- The report dict built by `ReportGenerator.create_report` before the
integrity hash is computed: `metadata.report_hash` is the empty string.
`timestamp` is the ISO rendering of `datetime.now(timezone.utc)`,
supplied as a parameter. -/
def reportSkeleton (sha256 : List Char → List Char)
    (sanitizeCtx : List Char → List Char) (cfg : PrivacyConfig)
    (agentId scanId operator timestamp : List Char) (ms : List PANMatch)
    (stats : ScanStats) (summary : ConfigSummary) : Json :=
  .obj [("metadata".toList, .obj
          [("report_version".toList, .str "1.0".toList),
           ("agent_id".toList, .str agentId),
           ("scan_id".toList, .str scanId),
           ("timestamp".toList, .str timestamp),
           ("operator".toList, .str operator),
           ("report_hash".toList, .str [])]),
        ("scan_parameters".toList, .obj
          [("directories_scanned".toList, .int summary.scan_directories),
           ("exclude_patterns_count".toList, .int summary.exclude_patterns),
           ("detect_plain_pan_enabled".toList, .bool summary.detect_plain_pan),
           ("action_policy".toList, .str summary.action_policy),
           ("max_file_size_mb".toList, .int summary.max_file_size_mb),
           ("concurrency".toList, .int summary.concurrency),
           ("privacy_settings".toList, .obj
             [("redact_pan".toList, .bool summary.privacy_redact_pan),
              ("show_last4_only".toList, .bool summary.privacy_show_last4_only)])]),
        ("scan_results".toList, .obj
          [("summary".toList, .obj
            [("total_files_scanned".toList, .int stats.files_scanned),
             ("total_files_skipped".toList, .int stats.files_skipped),
             ("total_directories_scanned".toList, .int stats.directories_scanned),
             ("total_matches_found".toList, .int ms.length),
             ("errors_encountered".toList, .int stats.errors),
             ("scan_duration_seconds".toList, .int stats.duration_seconds)]),
           ("findings_by_type".toList, categorize_findings ms),
           ("findings".toList, .arr (process_findings sha256 sanitizeCtx cfg ms)),
           ("risk_assessment".toList, assess_risk ms)]),
        ("compliance_notes".toList, .obj
          [("data_handling".toList,
            .str "This report follows PCI-DSS data minimization principles".toList),
           ("retention_policy".toList,
            .str "Sensitive data is masked unless explicitly authorized".toList),
           ("audit_trail".toList,
            .str ("Full audit log available for scan ".toList ++ scanId)),
           ("recommendations".toList,
            .arr ((generate_recommendations ms).map Json.str))])]

/-- Write a value into `report["metadata"]["report_hash"]`. -/
def setReportHash (r : Json) (h : Json) : Json :=
  match r with
  | .obj fields => .obj (fields.map fun p =>
      if p.1 = "metadata".toList then
        (p.1,
          match p.2 with
          | .obj mfields => Json.obj (mfields.map fun q =>
              if q.1 = "report_hash".toList then (q.1, h) else q)
          | v => v)
      else p)
  | j => j

/-- `ReportGenerator.create_report`: build the report with an empty
`report_hash`, serialize it with `json.dumps(report, sort_keys=True,
default=str)`, hash the serialization, and write the hash into
`metadata.report_hash`. -/
def create_report (sha256 : List Char → List Char)
    (sanitizeCtx : List Char → List Char) (cfg : PrivacyConfig)
    (agentId scanId operator timestamp : List Char) (ms : List PANMatch)
    (stats : ScanStats) (summary : ConfigSummary) : Json :=
  let report := reportSkeleton sha256 sanitizeCtx cfg agentId scanId operator
    timestamp ms stats summary
  setReportHash report (.str (sha256 (dumps true report)))

/-! ## `secure_client.SecureClient` — the pre-transmission safety gate

`_contains_sensitive_data` lowercases `json.dumps(report, default=str)`
and applies `re.findall(r'\b[0-9]{13,19}\b', ...)`.  Since every
character of the pattern body is a digit, the matches of that pattern
are exactly the maximal digit runs of length 13–19 whose neighbours (if
present) are non-word characters: no boundary exists inside a digit run,
and a longer maximal run admits no match because `{13,19}` cannot span
it while both ends touch a boundary. -/

/-- The maximal digit runs of `s` that are flanked by word boundaries
(`prev` is the character before the first list element).  The fuel
argument only bounds the recursion (the position advances by at least
one character per step); it is initialized to more steps than the scan
can take. -/
def boundedDigitRunsAux : Nat → Option Char → List Char → List (List Char)
  | 0, _, _ => []
  | _ + 1, _, [] => []
  | fuel + 1, prev, c :: cs =>
    if c.isDigit && boundaryBefore prev then
      let run := c :: cs.takeWhile Char.isDigit
      let rest := cs.drop (cs.takeWhile Char.isDigit).length
      (match rest.head? with
       | none => [run]
       | some d => if isWordChar d then [] else [run]) ++
        boundedDigitRunsAux fuel (some (run.getLastD c)) rest
    else boundedDigitRunsAux fuel (some c) cs

/-- `re.findall(r'\b[0-9]{13,19}\b', s)`. -/
def findallBarePans (s : List Char) : List (List Char) :=
  (boundedDigitRunsAux (s.length + 1) none s).filter
    (fun r => 13 ≤ r.length && r.length ≤ 19)

/-- `SecureClient._contains_sensitive_data`: any found digit run that
does not start with `202` or `201` (taken for a timestamp) and whose
inline Luhn checksum is divisible by 10 flags the report. -/
def contains_sensitive_data (report : Json) : Bool :=
  let reportStr := (dumps false report).map Char.toLower
  (findallBarePans reportStr).any fun pan =>
    if 13 ≤ pan.length &&
        !("202".toList.isPrefixOf pan || "201".toList.isPrefixOf pan) then
      luhnChecksum (pan.map digitVal) % 10 == 0
    else false

/-- `SecureClient._validate_report`: the four required top-level fields,
the four required metadata fields, and the sensitive-data check. -/
def validate_report (report : Json) : Bool :=
  ["metadata", "scan_parameters", "scan_results", "compliance_notes"].all
    (fun f => jsonHasKey report f.toList) &&
  (let metadata := (jsonGet report "metadata".toList).getD (.obj [])
   ["agent_id", "scan_id", "timestamp", "operator"].all
     (fun f => jsonHasKey metadata f.toList)) &&
  !contains_sensitive_data report

/-- `SecureClient.send_report` posts the (transformed) report iff
`_validate_report` passes; on a validation failure it returns `False`
without issuing the HTTP request. -/
def send_report_posts (report : Json) : Bool := validate_report report

/-! ## `file_scanner.FileScanner.scan_directories`

The two-pass scan.  The embedding determinizes the concurrency: pass 2
submits an initial batch of `min(2*concurrency, total)` files to the
pool and then repeatedly processes the completion of the oldest pending
file, which matches the source's behaviour when completions arrive in
submission order.  The walk of one root directory is supplied as the
list of paths `walk_directory` yields for it: during pass 1 of a fresh
scan `walk_directory` is a pure enumeration (its internal
`stats['files_scanned'] >= max_files` guard cannot fire, because
`files_scanned` is only incremented by `scan_file` in pass 2, after
enumeration has finished).

`stop_requested` is set from another thread; the embedding models it as
the sequence of values the flag has at each successive read (`stop k` is
the `k`-th read).  `progress_callback` is modelled as always present;
the emitted events are returned in order.  `max_files = 0` encodes the
source's "unlimited" (`float('inf')`) conversion. -/

inductive ProgressEvent where
  /-- `{'phase': 'counting', 'message': …, 'files_scanned': …,
  'total_files': …, 'matches_found': …}` -/
  | countingEv (message : List Char) (filesScanned totalFiles matchesFound : Nat)
  /-- the initial `{'phase': 'scanning', 'message': 'Scanning files...', …}` -/
  | scanningStartEv (message : List Char) (filesScanned totalFiles matchesFound : Nat)
  /-- a per-completion `{'phase': 'scanning', …, 'current_file': …,
  'in_queue': …, 'percentage': …}` -/
  | scanningEv (filesScanned totalFiles matchesFound : Nat)
      (currentFile : List Char) (inQueue : Nat) (percentage : ℚ)
  /-- the final `{'phase': 'complete', …, 'completed': True}` -/
  | completeEv (filesScanned totalFiles matchesFound : Nat)
      (currentFile : List Char) (inQueue : Nat) (percentage : ℚ)
      (completed : Bool)
deriving DecidableEq, Repr

/-- The `'phase'` key of an event. -/
def ProgressEvent.phase : ProgressEvent → List Char
  | .countingEv _ _ _ _ => "counting".toList
  | .scanningStartEv _ _ _ _ => "scanning".toList
  | .scanningEv _ _ _ _ _ _ => "scanning".toList
  | .completeEv _ _ _ _ _ _ _ => "complete".toList

/-- State of the pass-1 counting loop: the materialized `all_files`, the
index of the next `stop_requested` read, and the events emitted so
far. -/
structure Pass1State where
  files : List (List Char)
  checkIdx : Nat
  events : List ProgressEvent
deriving DecidableEq, Repr

/-- The counting event emitted every 1000 files. -/
def countingTick (n : Nat) : ProgressEvent :=
  .countingEv ("Found ".toList ++ (toString n).toList ++ " files...".toList) 0 n 0

/-- The inner `for file_path in self.walk_directory(directory)` loop of
pass 1 over one directory: append the path, emit a tick every 1000
paths, return early if `stop_requested` (the whole scan then returns
`[]`), break out of this directory once `max_files` is reached.  The
Boolean result records the early `return`. -/
def countOneDir (maxFiles : Nat) (stop : Nat → Bool) :
    Pass1State → List (List Char) → Pass1State × Bool
  | st, [] => (st, false)
  | st, f :: fs =>
    let files := st.files ++ [f]
    let events :=
      if files.length % 1000 == 0 then st.events ++ [countingTick files.length]
      else st.events
    if stop st.checkIdx then
      ({ files := files, checkIdx := st.checkIdx + 1, events := events }, true)
    else if maxFiles ≠ 0 && files.length ≥ maxFiles then
      ({ files := files, checkIdx := st.checkIdx + 1, events := events }, false)
    else
      countOneDir maxFiles stop
        { files := files, checkIdx := st.checkIdx + 1, events := events } fs

/-- Pass 1 over all root directories. -/
def pass1 (maxFiles : Nat) (stop : Nat → Bool) :
    Pass1State → List (List (List Char)) → Pass1State × Bool
  | st, [] => (st, false)
  | st, d :: ds =>
    let (st', early) := countOneDir maxFiles stop st d
    if early then (st', true) else pass1 maxFiles stop st' ds

/-- The pass-2 worker-pool loop, determinized (see the section comment):
`pending` are the in-flight files, `toSubmit` the not-yet-submitted
tail, `k` the index of the next `stop_requested` read.  Each iteration
checks the stop flag (break, cancelling the pending futures), processes
one completion, emits a `scanning` event, and refills the pool — the
refill reads the stop flag again, short-circuited away when nothing is
left to submit. -/
def pass2Loop (stop : Nat → Bool) (scanFile : List Char → List PANMatch)
    (total : Nat) :
    Nat → List (List Char) → List (List Char) → Nat → List PANMatch →
    List ProgressEvent → Nat × List PANMatch × List ProgressEvent
  | _, [], _, done, ms, evs => (done, ms, evs)
  | k, f :: rest, toSubmit, done, ms, evs =>
    if stop k then (done, ms, evs)
    else
      let ms' := ms ++ scanFile f
      let done' := done + 1
      let evs' := evs ++ [.scanningEv done' total ms'.length f rest.length
        (round1 ((done' : ℚ) / (total : ℚ) * 100))]
      match toSubmit with
      | [] => pass2Loop stop scanFile total (k + 1) rest [] done' ms' evs'
      | g :: gs =>
        if stop (k + 1) then
          pass2Loop stop scanFile total (k + 2) rest (g :: gs) done' ms' evs'
        else
          pass2Loop stop scanFile total (k + 2) (rest ++ [g]) gs done' ms' evs'
termination_by _ pending toSubmit _ _ _ => pending.length + toSubmit.length
decreasing_by all_goals simp [List.length_append] <;> omega

/-- `FileScanner.scan_directories`, returning the aggregated match list
and the progress events.  `walks` gives, per root directory, the paths
`walk_directory` yields for it; `scanFile` is `self.scan_file`. -/
def scan_directories (maxFiles concurrency : Nat) (stop : Nat → Bool)
    (walks : List (List (List Char)))
    (scanFile : List Char → List PANMatch) :
    List PANMatch × List ProgressEvent :=
  match pass1 maxFiles stop
      ({ files := [], checkIdx := 0,
         events := [.countingEv "Counting files...".toList 0 0 0] : Pass1State }) walks with
  | (st, early) =>
  if early then ([], st.events)
  else
    let total := st.files.length
    if total == 0 then ([], st.events)
    else
      let evs1 := st.events ++ [.scanningStartEv "Scanning files...".toList 0 total 0]
      let batch := min (concurrency * 2) total
      let (done, ms, evs2) := pass2Loop stop scanFile total st.checkIdx
        (st.files.take batch) (st.files.drop batch) 0 [] evs1
      (ms, evs2 ++ [.completeEv done total ms.length "Scan complete".toList 0 100 true])

/-! # Theorems -/

/-! ## C4 — the Luhn check -/

/-- The standard Luhn algorithm as the spec words it (§4.A): over the
digit-only string, walk left to right, double every digit whose
zero-based index has the same parity as `len % 2`, subtract 9 from
doubled digits exceeding 9, and require the sum of the post-transform
digits to be ≡ 0 (mod 10); the digit count must lie in `[13, 19]`. -/
def luhnSpecWalk (x : List Char) : Bool :=
  let ds := (x.filter Char.isDigit).map digitVal
  decide (13 ≤ ds.length ∧ ds.length ≤ 19) &&
    (ds.enum.map (fun p =>
      if p.1 % 2 == ds.length % 2 then
        (if 9 < p.2 * 2 then p.2 * 2 - 9 else p.2 * 2)
      else p.2)).sum % 10 == 0

/-- C4.  `PANDetector.luhn_check` implements the standard Luhn walk
described by the spec; it rejects digit counts outside `[13, 19]`; and
it is invariant under deleting the non-digit characters first, because
its first step is exactly that deletion. -/
theorem luhn_check_spec (x : List Char) :
    luhn_check x = luhnSpecWalk x ∧
    luhn_check x = luhn_check (x.filter Char.isDigit) ∧
    (((x.filter Char.isDigit).length < 13 ∨ 19 < (x.filter Char.isDigit).length) →
      luhn_check x = false) := by
  refine ⟨?_, ?_, ?_⟩
  · unfold luhn_check luhnSpecWalk luhnChecksum
    simp only [List.length_map]
    by_cases hlo : (x.filter Char.isDigit).length < 13
    · simp [hlo, Nat.not_le.mpr hlo]
    · by_cases hhi : (x.filter Char.isDigit).length > 19
      · simp [hhi, Nat.not_le.mpr hhi]
      · have h13 : 13 ≤ (x.filter Char.isDigit).length := by omega
        have h19 : (x.filter Char.isDigit).length ≤ 19 := by omega
        simp [hlo, hhi, h13, h19]
  · unfold luhn_check
    rw [List.filter_filter]
    simp
  · intro h
    unfold luhn_check
    rw [if_pos]
    simp only [List.length_map]
    rcases h with h | h
    · simp [h]
    · simp [Nat.lt_iff_add_one_le] at h ⊢; omega

/-- C4 witness: `luhn_check` at concrete inputs through the theorem. -/
theorem luhn_check_spec_witness : luhn_check "123".toList = false :=
  (luhn_check_spec "123".toList).2.2 (Or.inl (by decide))

/-! ## C5 — PAN masking -/

/-- Length of the longest run of consecutive characters satisfying `p`
(`cur` = length of the current run, `best` = best finished run). -/
def maxRunAux (p : Char → Bool) : List Char → Nat → Nat → Nat
  | [], cur, best => max cur best
  | c :: cs, cur, best =>
    if p c then maxRunAux p cs (cur + 1) best
    else maxRunAux p cs 0 (max cur best)

/-- Length of the longest run of consecutive digits in `s`. -/
def maxDigitRunLen (s : List Char) : Nat := maxRunAux Char.isDigit s 0 0

theorem maxRunAux_le (p : Char → Bool) :
    ∀ (t : List Char) (cur best : Nat),
      maxRunAux p t cur best ≤ max best (cur + t.length) := by
  intro t
  induction t with
  | nil => intro cur best; simp [maxRunAux]; omega
  | cons c cs ih =>
    intro cur best
    simp only [maxRunAux, List.length_cons]
    split
    · have := ih (cur + 1) best
      omega
    · have := ih 0 (max cur best)
      omega

theorem maxRunAux_replicate_append (p : Char → Bool) (c : Char) (hc : p c = false) :
    ∀ (k : Nat) (t : List Char),
      maxRunAux p (List.replicate k c ++ t) 0 0 = maxRunAux p t 0 0 := by
  intro k
  induction k with
  | zero => intro t; simp
  | succ n ih =>
    intro t
    simp only [List.replicate_succ, List.cons_append, maxRunAux, hc]
    simpa using ih t

theorem maxDigitRunLen_stars_append (t : List Char) (k : Nat) :
    maxDigitRunLen (List.replicate k '*' ++ t) ≤ t.length := by
  unfold maxDigitRunLen
  rw [maxRunAux_replicate_append Char.isDigit '*' (by decide)]
  have := maxRunAux_le Char.isDigit t 0 0
  omega

/-- C5.  `mask_pan` renders `n-4` stars plus the last four characters
when `show_last4` is set and the input has at least four characters,
and all stars otherwise; consequently no rendering it produces contains
a run of more than 4 consecutive digits. -/
theorem mask_pan_spec (pan : List Char) (showLast4 : Bool) :
    (4 ≤ pan.length → mask_pan pan true =
      List.replicate (pan.length - 4) '*' ++ pan.drop (pan.length - 4)) ∧
    mask_pan pan false = List.replicate pan.length '*' ∧
    (pan.length < 4 → mask_pan pan showLast4 = List.replicate pan.length '*') ∧
    maxDigitRunLen (mask_pan pan showLast4) ≤ 4 := by
  refine ⟨?_, ?_, ?_, ?_⟩
  · intro h
    unfold mask_pan
    rw [if_neg (by omega)]
    simp
  · unfold mask_pan
    split <;> simp
  · intro h
    unfold mask_pan
    rw [if_pos h]
  · unfold mask_pan
    split
    · rename_i h
      have h0 := maxDigitRunLen_stars_append [] pan.length
      simp at h0
      omega
    · rename_i h
      split
      · have := maxDigitRunLen_stars_append (pan.drop (pan.length - 4)) (pan.length - 4)
        simp only [List.length_drop] at this
        omega
      · have h0 := maxDigitRunLen_stars_append [] pan.length
        simp at h0
        omega

/-- C5 witness: the masking shapes at concrete inputs through the
theorem. -/
theorem mask_pan_spec_witness :
    mask_pan "4532015112830366".toList true =
      List.replicate 12 '*' ++ "0366".toList ∧
    mask_pan "123".toList true = List.replicate 3 '*' := by
  constructor
  · have := (mask_pan_spec "4532015112830366".toList true).1 (by decide)
    simpa using this
  · have := (mask_pan_spec "123".toList true).2.2.1 (by decide)
    simpa using this

/-! ## Inversion lemmas for `scan_text` -/

/-- The `(context_before || candidate || context_after)` window against
which `scan_text` re-evaluates `is_masked` for the hit `hit`. -/
def matchWindow (cfg : DetectorConfig) (line : List Char)
    (hit : Nat × Nat × List Char) : List Char :=
  (line.drop (hit.1 - cfg.contextWindow)).take (hit.1 - (hit.1 - cfg.contextWindow)) ++
    hit.2.2 ++
    (line.drop hit.2.1).take (min line.length (hit.2.1 + cfg.contextWindow) - hit.2.1)

theorem processCandidate_inv {cfg : DetectorConfig} {path : List Char}
    {n : Nat} {line : List Char} {ct : CardType} {hit : Nat × Nat × List Char}
    {m : PANMatch} (h : processCandidate cfg path n line ct hit = some m) :
    m.raw_match = (if cfg.allowFullPan then hit.2.2 else []) ∧
    m.is_masked = is_masked_number cfg (matchWindow cfg line hit) ∧
    m.masked_match = mask_pan (hit.2.2.filter Char.isDigit) cfg.showLast4 := by
  unfold processCandidate at h
  simp only [] at h
  split at h
  · exact absurd h (by simp)
  · split at h
    · exact absurd h (by simp)
    · split at h
      · exact absurd h (by simp)
      · cases h
        refine ⟨rfl, ?_, rfl⟩
        simp [matchWindow]

theorem mem_scan_text {cfg : DetectorConfig} {text path : List Char}
    {m : PANMatch} (h : m ∈ scan_text cfg text path) :
    ∃ n line ct hit,
      (n, line) ∈ enumFrom1 (splitLinesNl text) ∧
      is_masked_number cfg line = false ∧
      ct ∈ cardOrder ∧
      hit ∈ finditer (brandMatcher ct) line ∧
      processCandidate cfg path n line ct hit = some m := by
  unfold scan_text at h
  rw [List.mem_flatMap] at h
  obtain ⟨p, hp, hm⟩ := h
  unfold processLine at hm
  split at hm
  · exact absurd hm (by simp)
  · rename_i hmask
    rw [List.mem_flatMap] at hm
    obtain ⟨ct, hct, hm⟩ := hm
    rw [List.mem_filterMap] at hm
    obtain ⟨hit, hhit, hproc⟩ := hm
    exact ⟨p.1, p.2, ct, hit, hp, by simpa using hmask, hct, hhit, hproc⟩

/-! ## C1 — raw PAN retention is gated on `allow_full_pan_retention` -/

/-- C1.  When `allow_full_pan_retention` is off: every `PANMatch`
emitted by `scan_text` carries an empty `raw_match`, and every finding
produced by `_process_findings` has a `pan_data` dict with no
`full_number` key (its `hash` is `null`, since it is only computed from
a non-empty `raw_match`); so the raw PAN digits appear in no stored
match and in no serialized finding. -/
theorem scan_pipeline_no_raw_pan (cfg : DetectorConfig) (pcfg : PrivacyConfig)
    (sha256 sanitizeCtx : List Char → List Char) (text path : List Char)
    (ms : List PANMatch)
    (hdet : cfg.allowFullPan = false) (hpriv : pcfg.allowFullPan = false) :
    (∀ m ∈ scan_text cfg text path, m.raw_match = []) ∧
    (∀ f ∈ process_findings sha256 sanitizeCtx pcfg ms, ∀ pd,
      jsonGet f "pan_data".toList = some pd →
      jsonGet pd "full_number".toList = none) := by
  constructor
  · intro m hm
    obtain ⟨n, line, ct, hit, _, _, _, _, hproc⟩ := mem_scan_text hm
    have := (processCandidate_inv hproc).1
    rw [this, hdet]
    simp
  · intro f hf pd hpd
    unfold process_findings at hf
    rw [List.mem_map] at hf
    obtain ⟨m, _, rfl⟩ := hf
    have hget : jsonGet (findingOf sha256 sanitizeCtx pcfg m) "pan_data".toList =
        some (panDataOf sha256 pcfg m) := by
      simp [findingOf, jsonGet, List.find?]
    rw [hget] at hpd
    cases hpd
    simp [panDataOf, jsonGet, List.find?, hpriv]

/-- C1 witness: the theorem applied to the default (retention-off)
configurations, a concrete file text and a concrete match list. -/
theorem scan_pipeline_no_raw_pan_witness :
    (∀ m ∈ scan_text {} "Credit card number: 4532015112830366".toList "f".toList,
      m.raw_match = []) ∧
    (∀ f ∈ process_findings id id {}
        [{ file_path := "f".toList, line_number := 1, column_start := 20,
           column_end := 36, raw_match := [],
           masked_match := "************0366".toList, card_type := .visa,
           luhn_valid := true, confidence_score := 95,
           context_before := "Credit card number: ".toList,
           context_after := [], is_masked := false }], ∀ pd,
      jsonGet f "pan_data".toList = some pd →
      jsonGet pd "full_number".toList = none) :=
  scan_pipeline_no_raw_pan {} {} id id
    "Credit card number: 4532015112830366".toList "f".toList _ rfl rfl

/-! ## C3 — the shape of `pan_data` -/

/-- C3.  Every finding of `_process_findings` carries a `pan_data` dict
that always has `masked_number`; whose `hash` is `sha256(raw_match)`
exactly when the raw digits are present and `null` otherwise (never a
hash of the empty string); and which has a `full_number` key exactly
when `allow_full_pan_retention` is on and `redact_pan` is off. -/
theorem process_findings_pan_data (sha256 sanitizeCtx : List Char → List Char)
    (cfg : PrivacyConfig) (ms : List PANMatch) :
    process_findings sha256 sanitizeCtx cfg ms =
      ms.map (findingOf sha256 sanitizeCtx cfg) ∧
    ∀ m ∈ ms,
      jsonGet (findingOf sha256 sanitizeCtx cfg m) "pan_data".toList =
        some (panDataOf sha256 cfg m) ∧
      jsonGet (panDataOf sha256 cfg m) "masked_number".toList =
        some (.str m.masked_match) ∧
      (m.raw_match ≠ [] →
        jsonGet (panDataOf sha256 cfg m) "hash".toList =
          some (.str (sha256 m.raw_match))) ∧
      (m.raw_match = [] →
        jsonGet (panDataOf sha256 cfg m) "hash".toList = some Json.null) ∧
      (jsonHasKey (panDataOf sha256 cfg m) "full_number".toList = true ↔
        cfg.allowFullPan = true ∧ cfg.redactPan = false) := by
  refine ⟨rfl, ?_⟩
  intro m _
  refine ⟨by simp [findingOf, jsonGet, List.find?], ?_, ?_, ?_, ?_⟩
  · by_cases hb : (cfg.allowFullPan && !cfg.redactPan) = true <;>
      simp [panDataOf, hb, jsonGet, List.find?]
  · intro hraw
    by_cases hb : (cfg.allowFullPan && !cfg.redactPan) = true <;>
      simp [panDataOf, hb, hraw, jsonGet, List.find?]
  · intro hraw
    by_cases hb : (cfg.allowFullPan && !cfg.redactPan) = true <;>
      simp [panDataOf, hb, hraw, jsonGet, List.find?]
  · constructor
    · intro hkey
      by_cases hb : (cfg.allowFullPan && !cfg.redactPan) = true
      · simp only [Bool.and_eq_true, Bool.not_eq_true'] at hb
        exact ⟨hb.1, hb.2⟩
      · simp [panDataOf, hb, jsonHasKey, jsonGet, List.find?] at hkey
    · rintro ⟨h1, h2⟩
      simp [panDataOf, h1, h2, jsonHasKey, jsonGet, List.find?]

/-- C3 witness: the theorem applied to a concrete match with raw digits
retained and one with them absent. -/
theorem process_findings_pan_data_witness :
    jsonGet (panDataOf id { allowFullPan := true, redactPan := false }
        { file_path := "f".toList, line_number := 1, column_start := 0,
          column_end := 16, raw_match := "4532015112830366".toList,
          masked_match := "************0366".toList, card_type := .visa,
          luhn_valid := true, confidence_score := 100, context_before := [],
          context_after := [], is_masked := false }) "hash".toList =
      some (.str (id "4532015112830366".toList)) :=
  ((process_findings_pan_data id id { allowFullPan := true, redactPan := false }
      [_]).2 _ (List.mem_singleton.mpr rfl)).2.2.1 (by decide)

/-! ## C7 — the integrity hash round-trips -/

/-- `report["metadata"]["report_hash"]`. -/
def reportHashOf (r : Json) : Option Json :=
  jsonGet ((jsonGet r "metadata".toList).getD (.obj [])) "report_hash".toList

/-- C7.  For every report produced by `create_report` (over any hash
function, context sanitizer, privacy settings and scan data), the stored
`metadata.report_hash` equals the hash of the canonical serialization
(`sort_keys=True`) of the report with its `report_hash` field cleared to
the empty string. -/
theorem create_report_hash_roundtrip (sha256 sanitizeCtx : List Char → List Char)
    (cfg : PrivacyConfig) (agentId scanId operator timestamp : List Char)
    (ms : List PANMatch) (stats : ScanStats) (summary : ConfigSummary) :
    reportHashOf (create_report sha256 sanitizeCtx cfg agentId scanId operator
        timestamp ms stats summary) =
      some (.str (sha256 (dumps true
        (setReportHash (create_report sha256 sanitizeCtx cfg agentId scanId
          operator timestamp ms stats summary) (.str []))))) := by
  unfold create_report
  have hclear : setReportHash (setReportHash (reportSkeleton sha256 sanitizeCtx
      cfg agentId scanId operator timestamp ms stats summary)
        (.str (sha256 (dumps true (reportSkeleton sha256 sanitizeCtx cfg agentId
          scanId operator timestamp ms stats summary))))) (.str []) =
      reportSkeleton sha256 sanitizeCtx cfg agentId scanId operator timestamp
        ms stats summary := by
    rfl
  rw [hclear]
  rfl

/-! ## C2 — the pre-transmission safety gate -/

/-- C2 (amended).  For every report whose serialization contains a bare
digit run of length 13–19 that passes the inline Luhn check **and does
not begin with `202` or `201`** (runs with those prefixes are taken for
timestamps and skipped), `send_report` refuses transmission: validation
fails and the report is not posted. -/
theorem send_report_refuses (r : Json) (pan : List Char)
    (hmem : pan ∈ findallBarePans ((dumps false r).map Char.toLower))
    (hlo : 13 ≤ pan.length)
    (hpre : ("202".toList.isPrefixOf pan || "201".toList.isPrefixOf pan) = false)
    (hluhn : luhnChecksum (pan.map digitVal) % 10 = 0) :
    send_report_posts r = false := by
  have hsens : contains_sensitive_data r = true := by
    unfold contains_sensitive_data
    rw [List.any_eq_true]
    refine ⟨pan, hmem, ?_⟩
    have hcond : (13 ≤ pan.length &&
        !("202".toList.isPrefixOf pan || "201".toList.isPrefixOf pan)) = true := by
      rw [Bool.and_eq_true, hpre]
      exact ⟨by simpa using hlo, rfl⟩
    rw [if_pos hcond]
    simp [hluhn]
  unfold send_report_posts validate_report
  simp [hsens]

/-- A well-formed report whose findings text carries the Luhn-valid bare
run `2030000000000000` (no timestamp-like prefix). -/
def plainLeakReport : Json :=
  .obj [("metadata".toList, .obj
          [("agent_id".toList, .str "a1".toList),
           ("scan_id".toList, .str "s1".toList),
           ("timestamp".toList, .str "t1".toList),
           ("operator".toList, .str "op".toList)]),
        ("scan_parameters".toList, .obj []),
        ("scan_results".toList, .obj
          [("note".toList, .str "pan 2030000000000000 here".toList)]),
        ("compliance_notes".toList, .obj [])]

/-- C2 witness: the amended theorem applied to `plainLeakReport`. -/
theorem send_report_refuses_witness : send_report_posts plainLeakReport = false :=
  send_report_refuses plainLeakReport "2030000000000000".toList
    (by decide) (by decide) (by decide) (by decide)

/-- The refusal condition exactly as the claim states it: some bare
digit run of length 13–19 in the serialized JSON passes the Luhn
check (no timestamp-prefix exception). -/
def claimedLeakCondition (r : Json) : Bool :=
  (findallBarePans ((dumps false r).map Char.toLower)).any fun pan =>
    13 ≤ pan.length && pan.length ≤ 19 &&
      luhnChecksum (pan.map digitVal) % 10 == 0

/-- A well-formed report whose findings text carries the Luhn-valid bare
run `2020000000000002`. -/
def timestampLikeLeakReport : Json :=
  .obj [("metadata".toList, .obj
          [("agent_id".toList, .str "a1".toList),
           ("scan_id".toList, .str "s1".toList),
           ("timestamp".toList, .str "t1".toList),
           ("operator".toList, .str "op".toList)]),
        ("scan_parameters".toList, .obj []),
        ("scan_results".toList, .obj
          [("note".toList, .str "pan 2020000000000002 here".toList)]),
        ("compliance_notes".toList, .obj [])]

/-- C2 counterexample: `timestampLikeLeakReport` satisfies the claim's
refusal condition (its serialization contains the Luhn-valid 16-digit
bare run `2020000000000002`), yet `send_report` validates and posts it,
because `_contains_sensitive_data` skips runs starting with `202` or
`201`. -/
theorem send_report_refuses_counterexample :
    claimedLeakCondition timestampLikeLeakReport = true ∧
    send_report_posts timestampLikeLeakReport = true := by
  constructor
  · decide
  · decide

/-! ## C6 — stop requested before pass 2 -/

theorem pass1_stop_true (mf : Nat) :
    ∀ (walks : List (List (List Char))) (st : Pass1State), st.files = [] →
      pass1 mf (fun _ => true) st walks = (st, false) ∨
      ∃ f, pass1 mf (fun _ => true) st walks =
        ({ files := [f], checkIdx := st.checkIdx + 1, events := st.events }, true) := by
  intro walks
  induction walks with
  | nil => intro st _; exact Or.inl rfl
  | cons d ds ih =>
    intro st hf
    cases d with
    | nil =>
      have h1 : countOneDir mf (fun _ => true) st [] = (st, false) := rfl
      simp only [pass1, h1]
      exact ih st hf
    | cons f fs =>
      refine Or.inr ⟨f, ?_⟩
      simp [pass1, countOneDir, hf]

/-- C6 (amended).  If the stop flag reads true at every check — in
particular when a stop is requested before pass 2 begins —
`scan_directories` returns an empty match list, but emits **no**
completion event: its only progress event is the initial counting
event.  (The `stopped` status appears only in the log line; the final
callback payload, when one is emitted at all, always carries
`completed=True` and no stopped marker.) -/
theorem scan_directories_stopped (maxFiles concurrency : Nat)
    (walks : List (List (List Char))) (scanFile : List Char → List PANMatch) :
    scan_directories maxFiles concurrency (fun _ => true) walks scanFile =
      ([], [.countingEv "Counting files...".toList 0 0 0]) := by
  rcases pass1_stop_true maxFiles walks
      { files := [], checkIdx := 0,
        events := [.countingEv "Counting files...".toList 0 0 0] } rfl with h | ⟨f, h⟩
  · unfold scan_directories
    rw [h]
    rfl
  · unfold scan_directories
    rw [h]
    rfl


/-- C6 counterexample: with the stop flag raised before the counting
check, the scan of one directory holding one file returns no matches —
but its final (and only) progress event is a `counting` event, not the
completion event with a `stopped` status that the claim requires. -/
theorem scan_directories_stopped_counterexample :
    (scan_directories 10000 4 (fun _ => true) [["f".toList]] (fun _ => [])).1 = [] ∧
    ((scan_directories 10000 4 (fun _ => true) [["f".toList]]
        (fun _ => [])).2.map ProgressEvent.phase) = ["counting".toList] := by
  constructor
  · decide
  · decide

/-! ## C9 — the pass-1 file cap -/

theorem countOneDir_files_mono (mf : Nat) (stop : Nat → Bool) :
    ∀ (d : List (List Char)) (st : Pass1State),
      st.files.length ≤ (countOneDir mf stop st d).1.files.length := by
  intro d
  induction d with
  | nil => intro st; exact le_rfl
  | cons f fs ih =>
    intro st
    simp only [countOneDir]
    split
    · simp only [List.length_append, List.length_cons, List.length_nil]
      omega
    · split
      · simp only [List.length_append, List.length_cons, List.length_nil]
        omega
      · refine le_trans ?_ (ih _)
        simp only [List.length_append, List.length_cons, List.length_nil]
        omega

theorem countOneDir_files_le_of_lt (mf : Nat) (stop : Nat → Bool) (hmf : mf ≠ 0) :
    ∀ (d : List (List Char)) (st : Pass1State), st.files.length < mf →
      (countOneDir mf stop st d).1.files.length ≤ mf := by
  intro d
  induction d with
  | nil => intro st h; exact le_of_lt h
  | cons f fs ih =>
    intro st h
    simp only [countOneDir]
    split
    · simp only [List.length_append, List.length_cons, List.length_nil]
      omega
    · split
      · simp only [List.length_append, List.length_cons, List.length_nil]
        omega
      · rename_i hcap
        refine ih _ ?_
        have hc : ¬(mf ≠ 0 ∧ (st.files ++ [f]).length ≥ mf) := by
          simpa using hcap
        simp only [List.length_append, List.length_cons, List.length_nil,
          ne_eq, ge_iff_le, not_and, not_le] at hc
        simp only [List.length_append, List.length_cons, List.length_nil]
        exact hc hmf

theorem countOneDir_files_le_succ (mf : Nat) (stop : Nat → Bool) (hmf : mf ≠ 0) :
    ∀ (d : List (List Char)) (st : Pass1State), mf ≤ st.files.length →
      (countOneDir mf stop st d).1.files.length ≤ st.files.length + 1 := by
  intro d st h
  cases d with
  | nil => exact Nat.le_succ _
  | cons f fs =>
    simp only [countOneDir]
    split
    · simp only [List.length_append, List.length_cons, List.length_nil]
      omega
    · split
      · simp only [List.length_append, List.length_cons, List.length_nil]
        omega
      · rename_i hcap
        exfalso
        have hc : ¬(mf ≠ 0 ∧ (st.files ++ [f]).length ≥ mf) := by
          simpa using hcap
        simp only [List.length_append, List.length_cons, List.length_nil,
          ne_eq, ge_iff_le, not_and, not_le] at hc
        have := hc hmf
        omega

theorem pass1_files_le (mf : Nat) (stop : Nat → Bool) (hmf : mf ≠ 0) :
    ∀ (walks : List (List (List Char))) (st : Pass1State),
      (pass1 mf stop st walks).1.files.length ≤
        (if st.files.length < mf then mf + (walks.length - 1)
         else st.files.length + walks.length) := by
  intro walks
  induction walks with
  | nil =>
    intro st
    simp only [pass1, List.length_nil]
    split <;> omega
  | cons d ds ih =>
    intro st
    have hmono := countOneDir_files_mono mf stop d st
    have hlt1 := countOneDir_files_le_of_lt mf stop hmf d st
    have hsucc := countOneDir_files_le_succ mf stop hmf d st
    simp only [pass1]
    rcases hsplit : countOneDir mf stop st d with ⟨st', early⟩
    rw [hsplit] at hmono hlt1 hsucc
    dsimp only at hmono hlt1 hsucc ⊢
    have hih := ih st'
    cases early
    · rw [if_neg Bool.false_ne_true]
      by_cases hlt : st.files.length < mf
      · rw [if_pos hlt]
        have h1 := hlt1 hlt
        simp only [List.length_cons]
        by_cases hlt2 : st'.files.length < mf
        · rw [if_pos hlt2] at hih
          omega
        · rw [if_neg hlt2] at hih
          omega
      · rw [if_neg hlt]
        have h2 := hsucc (by omega)
        have hlt2 : ¬ st'.files.length < mf := by omega
        rw [if_neg hlt2] at hih
        simp only [List.length_cons]
        omega
    · rw [if_pos rfl]
      by_cases hlt : st.files.length < mf
      · rw [if_pos hlt]
        have h1 := hlt1 hlt
        simp only [List.length_cons]
        omega
      · rw [if_neg hlt]
        have h2 := hsucc (by omega)
        simp only [List.length_cons]
        omega

/-- C9 (amended).  With `max_files > 0`, pass-1 enumeration over a
single root directory materializes at most `max_files` paths; over
several root directories it can exceed `max_files` by one path per
additional directory, but never by more: the materialized list holds at
most `max_files + (directories - 1)` paths.  (The `break` on reaching
the cap only leaves the current directory's loop; the next directory
appends one path before its own cap check fires.) -/
theorem pass1_file_cap (mf : Nat) (stop : Nat → Bool)
    (walks : List (List (List Char))) (ev0 : ProgressEvent) (hmf : 0 < mf) :
    (pass1 mf stop { files := [], checkIdx := 0, events := [ev0] } walks).1.files.length ≤
      mf + (walks.length - 1) ∧
    (walks.length ≤ 1 →
      (pass1 mf stop { files := [], checkIdx := 0, events := [ev0] } walks).1.files.length ≤ mf) := by
  have h := pass1_files_le mf stop (by omega) walks
    { files := [], checkIdx := 0, events := [ev0] }
  rw [if_pos (by simpa using hmf)] at h
  exact ⟨h, fun h1 => by omega⟩

/-- C9 witness: the amended bound at `max_files = 1` over two
directories. -/
theorem pass1_file_cap_witness :
    (pass1 1 (fun _ => false)
      ({ files := [], checkIdx := 0,
         events := [.countingEv "Counting files...".toList 0 0 0] : Pass1State })
      [["a".toList], ["b".toList]]).1.files.length ≤ 1 + 1 :=
  (pass1_file_cap 1 (fun _ => false) [["a".toList], ["b".toList]]
    (.countingEv "Counting files...".toList 0 0 0) (by decide)).1

/-- C9 counterexample: with `max_files = 1` and two root directories of
one file each, pass 1 materializes two paths — the claimed bound
`max_files` is exceeded. -/
theorem pass1_file_cap_counterexample :
    (pass1 1 (fun _ => false)
      ({ files := [], checkIdx := 0,
         events := [.countingEv "Counting files...".toList 0 0 0] : Pass1State })
      [["a".toList], ["b".toList]]).1.files.length = 2 ∧ ¬(2 ≤ 1) := by
  constructor
  · decide
  · decide

/-! ## C8 — the recorded `is_masked` value

The source evaluates `is_masked_number` (not the bare pattern test) on
the context window, and `is_masked_number` short-circuits to `False`
when `exclude_masked_patterns` is off; so the recorded value is *not*
independent of that setting.  Moreover, when the setting is on, any
window that tests positive lies inside a line that already tested
positive and was skipped by the line pre-filter — so every match that
`scan_text` actually emits records `is_masked = false`. -/

theorem takeWhile_length_le (p : Char → Bool) :
    ∀ l : List Char, (l.takeWhile p).length ≤ l.length := by
  intro l
  induction l with
  | nil => simp
  | cons c cs ih =>
    by_cases h : p c
    · simp only [List.takeWhile_cons, h, if_true, List.length_cons]
      omega
    · simp [List.takeWhile_cons, h]

theorem takeWhile_length_le_append (p : Char → Bool) (t b : List Char) :
    (t.takeWhile p).length ≤ ((t ++ b).takeWhile p).length := by
  induction t with
  | nil => simp
  | cons c cs ih =>
    by_cases h : p c
    · simpa [List.cons_append, List.takeWhile_cons, h] using ih
    · simp [List.takeWhile_cons, h]

theorem takeWhile_append_of_lt (p : Char → Bool) (t b : List Char)
    (h : (t.takeWhile p).length < t.length) :
    (t ++ b).takeWhile p = t.takeWhile p := by
  induction t with
  | nil => simp at h
  | cons c cs ih =>
    by_cases hc : p c
    · simp only [List.takeWhile_cons, hc, if_pos, List.length_cons,
        List.cons_append] at h ⊢
      rw [ih (by omega)]
    · simp [List.takeWhile_cons, hc]

theorem patRepeat4_append (fill : Char) (t b : List Char)
    (h : patRepeat4 fill t = true) : patRepeat4 fill (t ++ b) = true := by
  unfold patRepeat4 at h ⊢
  simp only [decide_eq_true_eq] at h ⊢
  exact le_trans h (takeWhile_length_le_append _ t b)

theorem patFillThen4Digits_append (fill : Char) (t b : List Char)
    (h : patFillThen4Digits fill t = true) :
    patFillThen4Digits fill (t ++ b) = true := by
  unfold patFillThen4Digits at h ⊢
  simp only [Bool.and_eq_true, decide_eq_true_eq] at h ⊢
  obtain ⟨⟨h1, h2⟩, h3⟩ := h
  have hlt : (t.takeWhile (fun c => c == fill)).length < t.length := by
    have hle := takeWhile_length_le (fun c => c == fill) t
    rcases Nat.lt_or_ge (t.takeWhile (fun c => c == fill)).length t.length with hl | hg
    · exact hl
    · exfalso
      have : (t.takeWhile (fun c => c == fill)).length = t.length := by omega
      have hdrop : (t.drop (t.takeWhile (fun c => c == fill)).length).length = 0 := by
        simp [this]
      omega
  rw [takeWhile_append_of_lt _ _ _ hlt]
  have hdr : (t ++ b).drop (t.takeWhile (fun c => c == fill)).length =
      t.drop (t.takeWhile (fun c => c == fill)).length ++ b := by
    rw [List.drop_append_of_le_length (by omega)]
  rw [hdr]
  refine ⟨⟨h1, ?_⟩, ?_⟩
  · simp only [List.length_append, List.length_drop] at h2 ⊢
    omega
  · rw [List.take_append_of_le_length (by omega)]
    exact h3

theorem patDigitsThenFill_append (t b : List Char)
    (h : patDigitsThenFill t = true) : patDigitsThenFill (t ++ b) = true := by
  unfold patDigitsThenFill at h ⊢
  simp only [Bool.and_eq_true, decide_eq_true_eq] at h ⊢
  obtain ⟨⟨h1, h2⟩, h3⟩ := h
  rw [List.take_append_of_le_length (by omega)]
  have hdr : (t ++ b).drop 4 = t.drop 4 ++ b :=
    List.drop_append_of_le_length (by omega)
  rw [hdr]
  refine ⟨⟨by simp only [List.length_append]; omega, h2⟩, ?_⟩
  exact le_trans h3 (takeWhile_length_le_append _ _ b)

theorem patDashed_append (t b : List Char)
    (h : patDashed t = true) : patDashed (t ++ b) = true := by
  unfold patDashed at h ⊢
  simp only [Bool.and_eq_true, decide_eq_true_eq, beq_iff_eq] at h ⊢
  obtain ⟨⟨⟨⟨⟨⟨⟨h1, h2⟩, h3⟩, h4⟩, h5⟩, h6⟩, h7⟩, h8⟩ := h
  rw [List.take_append_of_le_length (by omega),
    List.get?_append (by omega : (4 : Nat) < t.length),
    List.drop_append_of_le_length (by omega),
    List.take_append_of_le_length (by simp only [List.length_drop]; omega),
    List.get?_append (by omega : (9 : Nat) < t.length),
    List.drop_append_of_le_length (by omega),
    List.take_append_of_le_length (by simp only [List.length_drop]; omega),
    List.get?_append (by omega : (14 : Nat) < t.length),
    List.drop_append_of_le_length (by omega),
    List.take_append_of_le_length (by simp only [List.length_drop]; omega)]
  exact ⟨⟨⟨⟨⟨⟨⟨by simp only [List.length_append]; omega, h2⟩, h3⟩, h4⟩, h5⟩, h6⟩, h7⟩, h8⟩

theorem searchPat_mono (p : List Char → Bool)
    (hp : ∀ t b, p t = true → p (t ++ b) = true)
    {w line : List Char} (hinf : w <:+: line) (hw : searchPat p w = true) :
    searchPat p line = true := by
  obtain ⟨a, b, hab⟩ := hinf
  unfold searchPat at hw ⊢
  rw [List.any_eq_true] at hw ⊢
  obtain ⟨t, ht, hpt⟩ := hw
  rw [List.mem_tails] at ht
  obtain ⟨u, hu⟩ := ht
  refine ⟨t ++ b, ?_, hp t b hpt⟩
  rw [List.mem_tails]
  refine ⟨a ++ u, ?_⟩
  rw [← hab, ← hu]
  simp

theorem maskedPatternsFound_mono {w line : List Char} (hinf : w <:+: line)
    (hw : maskedPatternsFound w = true) : maskedPatternsFound line = true := by
  unfold maskedPatternsFound at hw ⊢
  simp only [Bool.or_eq_true] at hw ⊢
  rcases hw with ((((((f1 | f2) | f3) | f4) | f5) | f6) | f7) | f8
  · exact Or.inl (Or.inl (Or.inl (Or.inl (Or.inl (Or.inl (Or.inl
      (searchPat_mono _ (patRepeat4_append '*') hinf f1)))))))
  · exact Or.inl (Or.inl (Or.inl (Or.inl (Or.inl (Or.inl (Or.inr
      (searchPat_mono _ (patRepeat4_append 'X') hinf f2)))))))
  · exact Or.inl (Or.inl (Or.inl (Or.inl (Or.inl (Or.inr
      (searchPat_mono _ (patRepeat4_append '#') hinf f3))))))
  · exact Or.inl (Or.inl (Or.inl (Or.inl (Or.inr
      (searchPat_mono _ (patFillThen4Digits_append '*') hinf f4)))))
  · exact Or.inl (Or.inl (Or.inl (Or.inr
      (searchPat_mono _ (patFillThen4Digits_append 'X') hinf f5))))
  · exact Or.inl (Or.inl (Or.inr
      (searchPat_mono _ (patFillThen4Digits_append '#') hinf f6)))
  · exact Or.inl (Or.inr (searchPat_mono _ patDigitsThenFill_append hinf f7))
  · exact Or.inr (searchPat_mono _ patDashed_append hinf f8)

/-- A matcher that only reports matches that fit inside the scanned
suffix. -/
def MatcherBounded (m : Option Char → List Char → Option Nat) : Prop :=
  ∀ prev s L, m prev s = some L → 0 < L ∧ L ≤ s.length

theorem digitRun_le {s : List Char} {n : Nat} (h : digitRun s n = true) :
    n ≤ s.length := by
  unfold digitRun at h
  rw [Bool.and_eq_true] at h
  simpa using h.1

theorem brandMatcher_bounded (ct : CardType) : MatcherBounded (brandMatcher ct) := by
  intro prev s L h
  cases ct <;> simp only [brandMatcher] at h
  case visa =>
    unfold visaLen at h
    split at h
    · rename_i hc
      simp only [Bool.and_eq_true] at hc
      split at h
      · rename_i h16
        split at h
        · cases h; exact ⟨by omega, digitRun_le h16⟩
        · exact absurd h (by simp)
      · split at h
        · cases h; exact ⟨by omega, digitRun_le hc.2⟩
        · exact absurd h (by simp)
    · exact absurd h (by simp)
  case mastercard =>
    unfold mastercardLen at h
    split at h
    · rename_i hc
      simp only [Bool.and_eq_true] at hc
      cases h; exact ⟨by omega, digitRun_le hc.2⟩
    · split at h
      · rename_i hc
        simp only [Bool.and_eq_true] at hc
        cases h; exact ⟨by omega, digitRun_le hc.1.2⟩
      · exact absurd h (by simp)
  case amex =>
    unfold amexLen at h
    split at h
    · rename_i hc
      simp only [Bool.and_eq_true] at hc
      cases h; exact ⟨by omega, digitRun_le hc.1.2⟩
    · exact absurd h (by simp)
  case discover =>
    unfold discoverLen at h
    split at h
    · rename_i hc
      simp only [Bool.and_eq_true] at hc
      cases h; exact ⟨by omega, digitRun_le hc.1.2⟩
    · exact absurd h (by simp)
  case diners =>
    unfold dinersLen at h
    split at h
    · rename_i hc
      simp only [Bool.and_eq_true] at hc
      cases h; exact ⟨by omega, digitRun_le hc.1.2⟩
    · exact absurd h (by simp)
  case jcb =>
    unfold jcbLen at h
    split at h
    · split at h
      · rename_i hc
        simp only [Bool.and_eq_true] at hc
        cases h; exact ⟨by omega, digitRun_le hc.1.2⟩
      · split at h
        · rename_i hc
          simp only [Bool.and_eq_true] at hc
          cases h; exact ⟨by omega, digitRun_le hc.1.2⟩
        · split at h
          · rename_i hc
            simp only [Bool.and_eq_true] at hc
            cases h; exact ⟨by omega, digitRun_le hc.1.2⟩
          · exact absurd h (by simp)
    · exact absurd h (by simp)
  case unknown => exact absurd h (by simp)

theorem finditerAux_slices {m : Option Char → List Char → Option Nat}
    (hm : MatcherBounded m) (line : List Char) :
    ∀ (fuel pos : Nat) (prev : Option Char),
      ∀ hit ∈ finditerAux m fuel prev (line.drop pos) pos,
        hit.1 ≤ hit.2.1 ∧ hit.2.1 ≤ line.length ∧
        hit.2.2 = (line.drop hit.1).take (hit.2.1 - hit.1) := by
  intro fuel
  induction fuel with
  | zero => intro pos prev hit h; simp [finditerAux] at h
  | succ n ih =>
    intro pos prev hit h
    cases hdrop : line.drop pos with
    | nil => rw [hdrop] at h; simp [finditerAux] at h
    | cons c cs =>
      rw [hdrop] at h
      have hpos : pos + (c :: cs).length = line.length := by
        have := congrArg List.length hdrop
        simp only [List.length_drop, List.length_cons] at this ⊢
        omega
      unfold finditerAux at h
      cases hmatch : m prev (c :: cs) with
      | some L =>
        rw [hmatch] at h
        obtain ⟨hL0, hLlen⟩ := hm prev (c :: cs) L hmatch
        rcases List.mem_cons.mp h with heq | hrest
        · subst heq
          dsimp only
          refine ⟨by omega, by omega, ?_⟩
          rw [hdrop]
          congr 1
          omega
        · have hdrop2 : line.drop (pos + L) = (c :: cs).drop L := by
            have h2 := List.drop_drop L pos line
            rw [hdrop] at h2
            exact h2.symm
          exact ih (pos + L) ((c :: cs).get? (L - 1)) hit (by rw [hdrop2]; exact hrest)
      | none =>
        rw [hmatch] at h
        have hdrop1 : line.drop (pos + 1) = cs := by
          have h2 := List.drop_drop 1 pos line
          rw [hdrop] at h2
          simpa using h2.symm
        exact ih (pos + 1) (some c) hit (by rw [hdrop1]; exact h)

theorem finditer_slices {m : Option Char → List Char → Option Nat}
    (hm : MatcherBounded m) {line : List Char} {hit : Nat × Nat × List Char}
    (h : hit ∈ finditer m line) :
    hit.1 ≤ hit.2.1 ∧ hit.2.1 ≤ line.length ∧
    hit.2.2 = (line.drop hit.1).take (hit.2.1 - hit.1) := by
  apply finditerAux_slices hm line (line.length + 1) 0 none
  simpa using h

theorem slice_append (l : List Char) (a b c : Nat) (hab : a ≤ b) (hbc : b ≤ c) :
    (l.drop a).take (b - a) ++ (l.drop b).take (c - b) = (l.drop a).take (c - a) := by
  have hdd : l.drop b = (l.drop a).drop (b - a) := by
    have h2 := List.drop_drop (b - a) a l
    rw [show a + (b - a) = b by omega] at h2
    exact h2.symm
  rw [hdd, show c - a = (b - a) + (c - b) by omega, List.take_add]

theorem drop_take_part (l : List Char) (a k : Nat) : (l.drop a).take k <:+: l := by
  refine ⟨l.take a, (l.drop a).drop k, ?_⟩
  rw [List.append_assoc, List.take_append_drop, List.take_append_drop]

theorem matchWindow_part (cfg : DetectorConfig) (line : List Char)
    (hit : Nat × Nat × List Char)
    (h1 : hit.1 ≤ hit.2.1) (h2 : hit.2.1 ≤ line.length)
    (hslice : hit.2.2 = (line.drop hit.1).take (hit.2.1 - hit.1)) :
    matchWindow cfg line hit <:+: line := by
  obtain ⟨st, en, cand⟩ := hit
  dsimp only at h1 h2 hslice
  subst hslice
  unfold matchWindow
  dsimp only
  rw [slice_append line (st - cfg.contextWindow) st en (by omega) h1,
    slice_append line (st - cfg.contextWindow) en
      (min line.length (en + cfg.contextWindow)) (by omega) (by omega)]
  exact drop_take_part line _ _

/-- C8 (amended).  The recorded `is_masked` equals `is_masked_number`
evaluated on the `(context_before || candidate || context_after)`
window — a test that consults `exclude_masked_patterns` and returns
`false` outright when that setting is off, so the recorded value is
*not* independent of the configuration.  Consequently every match that
`scan_text` emits records `is_masked = false`: with the setting off the
test short-circuits, and with it on a positive window would have caused
the whole line to be skipped by the pre-filter. -/
theorem scan_text_is_masked (cfg : DetectorConfig) :
    (∀ (path : List Char) (n : Nat) (line : List Char) (ct : CardType)
      (hit : Nat × Nat × List Char) (m : PANMatch),
      processCandidate cfg path n line ct hit = some m →
      m.is_masked = is_masked_number cfg (matchWindow cfg line hit) ∧
      (cfg.excludeMasked = false → m.is_masked = false)) ∧
    (∀ (text path : List Char), ∀ m ∈ scan_text cfg text path,
      m.is_masked = false) := by
  constructor
  · intro path n line ct hit m h
    refine ⟨(processCandidate_inv h).2.1, fun hex => ?_⟩
    rw [(processCandidate_inv h).2.1]
    unfold is_masked_number
    rw [if_pos (by simp [hex])]
  · intro text path m hm
    obtain ⟨n, line, ct, hit, henum, hline, hct, hhit, hproc⟩ := mem_scan_text hm
    rw [(processCandidate_inv hproc).2.1]
    by_cases hex : cfg.excludeMasked = true
    · unfold is_masked_number at hline ⊢
      rw [if_neg (by simp [hex])] at hline ⊢
      by_cases hw : maskedPatternsFound (matchWindow cfg line hit) = true
      · exfalso
        obtain ⟨hs1, hs2, hs3⟩ := finditer_slices (brandMatcher_bounded ct) hhit
        have hinfix := matchWindow_part cfg line hit hs1 hs2 hs3
        rw [maskedPatternsFound_mono hinfix hw] at hline
        exact absurd hline (by decide)
      · exact (Bool.not_eq_true _).mp hw
    · unfold is_masked_number
      rw [if_pos (by simp [(Bool.not_eq_true _).mp hex])]

/-- The first match `scan_text` finds in the S1 scenario line under the
default configuration. -/
def s1Match : PANMatch :=
  { file_path := "f".toList, line_number := 1, column_start := 20,
    column_end := 36, raw_match := [],
    masked_match := "************0366".toList, card_type := .visa,
    luhn_valid := true, confidence_score := 95,
    context_before := "Credit card number: ".toList, context_after := [],
    is_masked := false }

/-- C8 witness: the amended theorem applied to the S1 scenario under
the default configuration. -/
theorem scan_text_is_masked_witness :
    s1Match ∈ scan_text {} "Credit card number: 4532015112830366".toList
      "f".toList ∧
    s1Match.is_masked = false :=
  ⟨by decide, (scan_text_is_masked {}).2
    "Credit card number: 4532015112830366".toList "f".toList s1Match (by decide)⟩

/-- The configuration of the C8 counterexample: masked-pattern
exclusion off (and full retention on, so the emitted match exposes the
candidate and the window can be reassembled from its fields). -/
def c8Config : DetectorConfig := { excludeMasked := false, allowFullPan := true }

/-- C8 counterexample: with `exclude_masked_patterns` off, the line
`****1234 card 4532015112830366` yields one match whose recorded
`is_masked` is `false` although the masked-pattern test on its
`(context_before || candidate || context_after)` window is positive —
the recorded value is the output of `is_masked_number`, which depends
on `exclude_masked_patterns`, not the bare masked-pattern test. -/
theorem scan_text_is_masked_counterexample :
    ((scan_text c8Config "****1234 card 4532015112830366".toList "f".toList).map
      (fun m => (m.is_masked,
        maskedPatternsFound (m.context_before ++ m.raw_match ++ m.context_after)))) =
      [(false, true)] := by
  decide

/-! ## C10 — path sanitization

`ReportGenerator._sanitize_file_path` and
`AuditLogger._sanitize_file_path` differ in one decisive detail: the
report generator's second and third replacement templates are *raw*
Python strings, the audit logger's are not.  The audit logger therefore
hands `re.sub` the template `\Users\<user>\`, whose `\U` escape the
template parser rejects — eagerly, before any match is attempted — so
the audit implementation raises `re.error` on **every** input and never
returns a path at all, while the report generator's implementation
always returns the substituted path. -/

/-- C10.  The audit logger's sanitizer raises
`re.error: bad escape \U at position 0` (from its second `re.sub`) on
every input, including the failing input `/home/alice/file.txt`; the
report generator's sanitizer never raises and returns the substitution
`rgSanitize`. -/
theorem sanitize_file_path_bug :
    (∀ p : List Char, audit_sanitize_file_path p =
      .error ("bad escape \\U at position 0".toList)) ∧
    audit_sanitize_file_path "/home/alice/file.txt".toList =
      .error ("bad escape \\U at position 0".toList) ∧
    (∀ p : List Char, rg_sanitize_file_path p = .ok (rgSanitize p)) :=
  ⟨fun _ => rfl, rfl, fun _ => rfl⟩

end PCI
